import Mathlib

/-!
Verification of the MemorizedMCP-TS memory engine core against its
natural-language specification.

The development shallowly embeds the relevant TypeScript source:

* `SlidingWindowTextSplitter.split` (document-service)
* `DefaultDocumentService.ingest` / `deleteDocument`
* `KnowledgeGraphRepository.upsertEntity` / `updateEntityActivity` /
  `setEntityTags` and the service-level `ensureEntities`, `tagEntity`
* `DefaultKnowledgeGraphService.readGraph` / `findPath`
* `DefaultSearchService.#collectScores` / `#combineScores` / `searchMemories`

Strings of the host language are modelled as `List Char` (JS `.length` /
`.slice` operate on code units, which the claims treat abstractly);
JS numbers used as scores are modelled as `ℚ`; SQLite tables are lists of
row structures; the SQLite `Date.now()` / `randomUUID()` effects are
passed in as explicit parameters.
-/

namespace MemorizedMCP

/-! ## Sliding-window text splitter (document-service.ts, SlidingWindowTextSplitter) -/

/-- One chunk produced by the splitter: `{ text, start, end }`
(`end` is a Lean keyword, rendered `stop`). -/
structure TextChunk where
  text : List Char
  start : Nat
  stop : Nat
deriving DecidableEq, Repr

/-- The splitter's `while (start < length)` loop.  The window end is
`min(start + chunkSize, length)`; the loop pushes the chunk, stops when the
window reaches the end of the text, and otherwise restarts at
`end - chunkOverlap`.  The `chunkOverlap < chunkSize` guard (checked by the
source before the loop) is carried as a hypothesis: it is what makes the
loop terminate. -/
def splitLoop (text : List Char) (chunkSize chunkOverlap : Nat)
    (hlt : chunkOverlap < chunkSize) (start : Nat) : List TextChunk :=
  if h : start < text.length then
    let e := min (start + chunkSize) text.length
    let chunk : TextChunk := ⟨(text.drop start).take (e - start), start, e⟩
    if he : e = text.length then [chunk]
    else chunk :: splitLoop text chunkSize chunkOverlap hlt (e - chunkOverlap)
  else []
termination_by text.length - start
decreasing_by
  have hmin : min (start + chunkSize) text.length = start + chunkSize := by
    rcases Nat.le_total (start + chunkSize) text.length with hle | hle
    · exact min_eq_left hle
    · exact absurd (Nat.le_antisymm (min_le_right _ _) (le_min hle (le_refl _))) he
  have hstep : start < min (start + chunkSize) text.length - chunkOverlap := by
    rw [hmin]
    omega
  exact Nat.sub_lt_sub_left h hstep

/-- `SlidingWindowTextSplitter.split`: throws when `chunkOverlap >= chunkSize`,
otherwise runs the sliding-window loop from position 0. -/
def split (text : List Char) (chunkSize chunkOverlap : Nat) :
    Except String (List TextChunk) :=
  if h : chunkOverlap < chunkSize then
    .ok (splitLoop text chunkSize chunkOverlap h 0)
  else
    .error "chunkOverlap must be smaller than chunkSize"

/-- When the loop does not stop at this window, the window was not clipped:
its end is exactly `start + chunkSize`. -/
theorem splitLoop_window_full {len chunkSize start : Nat}
    (he : ¬ min (start + chunkSize) len = len) :
    min (start + chunkSize) len = start + chunkSize := by
  rcases Nat.le_total (start + chunkSize) len with hle | hle
  · exact min_eq_left hle
  · exact absurd (Nat.le_antisymm (min_le_right _ _) (le_min hle (le_refl _))) he

/-- Chunk starts produced by the loop advance in steps of
`chunkSize - chunkOverlap` from the initial position. -/
theorem splitLoop_starts (text : List Char) (chunkSize chunkOverlap : Nat)
    (hlt : chunkOverlap < chunkSize) :
    ∀ n start, text.length - start ≤ n →
      ∀ i c, (splitLoop text chunkSize chunkOverlap hlt start).get? i = some c →
        c.start = start + i * (chunkSize - chunkOverlap) := by
  intro n
  induction n with
  | zero =>
      intro start hle i c hc
      rw [splitLoop, dif_neg (by omega)] at hc
      simp at hc
  | succ n ih =>
      intro start hle i c hc
      rw [splitLoop] at hc
      by_cases h : start < text.length
      · rw [dif_pos h] at hc
        by_cases he : min (start + chunkSize) text.length = text.length
        · rw [dif_pos he] at hc
          cases i with
          | zero =>
              simp only [List.get?_cons_zero, Option.some.injEq] at hc
              subst hc
              simp
          | succ j => simp at hc
        · rw [dif_neg he] at hc
          have hfull := splitLoop_window_full he
          cases i with
          | zero =>
              simp only [List.get?_cons_zero, Option.some.injEq] at hc
              subst hc
              simp
          | succ j =>
              simp only [List.get?_cons_succ] at hc
              have hrec := ih (min (start + chunkSize) text.length - chunkOverlap)
                (by omega) j c hc
              rw [hfull] at hrec
              rw [Nat.succ_mul]
              omega
      · rw [dif_neg h] at hc
        simp at hc

/-- Every chunk produced by the loop has its positions in order, spans at most
`chunkSize` code units, and ends within the text. -/
theorem splitLoop_bounds (text : List Char) (chunkSize chunkOverlap : Nat)
    (hlt : chunkOverlap < chunkSize) :
    ∀ n start, text.length - start ≤ n →
      ∀ c ∈ splitLoop text chunkSize chunkOverlap hlt start,
        c.start ≤ c.stop ∧ c.stop - c.start ≤ chunkSize ∧ c.stop ≤ text.length := by
  intro n
  induction n with
  | zero =>
      intro start hle c hc
      rw [splitLoop, dif_neg (by omega)] at hc
      simp at hc
  | succ n ih =>
      intro start hle c hc
      rw [splitLoop] at hc
      by_cases h : start < text.length
      · rw [dif_pos h] at hc
        have h1 := min_le_left (start + chunkSize) text.length
        have h2 := min_le_right (start + chunkSize) text.length
        have h3 : start ≤ min (start + chunkSize) text.length :=
          le_min (by omega) (le_of_lt h)
        by_cases he : min (start + chunkSize) text.length = text.length
        · rw [dif_pos he] at hc
          simp at hc
          subst hc
          refine ⟨h3, ?_, h2⟩
          dsimp only
          omega
        · rw [dif_neg he] at hc
          have hfull := splitLoop_window_full he
          simp only [List.mem_cons] at hc
          rcases hc with hc | hc
          · subst hc
            refine ⟨h3, ?_, h2⟩
            dsimp only
            omega
          · exact ih (min (start + chunkSize) text.length - chunkOverlap)
              (by omega) c hc
      · rw [dif_neg h] at hc
        simp at hc

/-- Coverage: the half-open ranges `[start, stop)` of the chunks cover the
whole suffix `[start, text.length)` the loop was started on. -/
theorem splitLoop_covers (text : List Char) (chunkSize chunkOverlap : Nat)
    (hlt : chunkOverlap < chunkSize) :
    ∀ n start, text.length - start ≤ n →
      ∀ x, start ≤ x → x < text.length →
        ∃ c ∈ splitLoop text chunkSize chunkOverlap hlt start,
          c.start ≤ x ∧ x < c.stop := by
  intro n
  induction n with
  | zero =>
      intro start hle x hsx hx
      omega
  | succ n ih =>
      intro start hle x hsx hx
      have h : start < text.length := by omega
      rw [splitLoop, dif_pos h]
      by_cases he : min (start + chunkSize) text.length = text.length
      · rw [dif_pos he]
        exact ⟨_, List.mem_singleton_self _, hsx, by simp [he, hx]⟩
      · rw [dif_neg he]
        have hfull := splitLoop_window_full he
        by_cases hxe : x < min (start + chunkSize) text.length
        · exact ⟨_, List.mem_cons_self _ _, hsx, hxe⟩
        · have hle2 : min (start + chunkSize) text.length - chunkOverlap ≤ x := by
            omega
          obtain ⟨c, hcmem, hcx⟩ := ih
            (min (start + chunkSize) text.length - chunkOverlap) (by omega)
            x hle2 hx
          exact ⟨c, List.mem_cons_of_mem _ hcmem, hcx⟩

/-- Claim C5: with `chunkOverlap < chunkSize` the splitter succeeds and its
chunks start at `i * (chunkSize - chunkOverlap)`, each span at most
`chunkSize`, and their `[positionStart, positionEnd)` ranges cover
`[0, text.length)`; with `chunkOverlap ≥ chunkSize` it fails with the
validation error instead. -/
theorem split_sliding_window_correct (text : List Char) (chunkSize chunkOverlap : Nat)
    (hlt : chunkOverlap < chunkSize) :
    ∃ L, split text chunkSize chunkOverlap = .ok L ∧
      (∀ i c, L.get? i = some c → c.start = i * (chunkSize - chunkOverlap)) ∧
      (∀ c ∈ L, c.stop - c.start ≤ chunkSize) ∧
      (∀ x, x < text.length → ∃ c ∈ L, c.start ≤ x ∧ x < c.stop) := by
  refine ⟨splitLoop text chunkSize chunkOverlap hlt 0, ?_, ?_, ?_, ?_⟩
  · rw [split, dif_pos hlt]
  · intro i c hc
    simpa using splitLoop_starts text chunkSize chunkOverlap hlt text.length 0
      (by omega) i c hc
  · intro c hc
    exact (splitLoop_bounds text chunkSize chunkOverlap hlt text.length 0
      (by omega) c hc).2.1
  · intro x hx
    exact splitLoop_covers text chunkSize chunkOverlap hlt text.length 0
      (by omega) x (Nat.zero_le x) hx

/-- Witness for C5 at the spec's example: a 25-character string with
`chunkSize = 10`, `chunkOverlap = 3`; additionally the concrete chunk starts
are `0, 7, 14, 21` and the final chunk ends at 25. -/
theorem split_sliding_window_correct_witness :
    (∃ L, split "abcdefghijklmnopqrstuvwxy".toList 10 3 = .ok L ∧
      (∀ i c, L.get? i = some c → c.start = i * (10 - 3)) ∧
      (∀ c ∈ L, c.stop - c.start ≤ 10) ∧
      (∀ x, x < "abcdefghijklmnopqrstuvwxy".toList.length →
        ∃ c ∈ L, c.start ≤ x ∧ x < c.stop)) ∧
    (split "abcdefghijklmnopqrstuvwxy".toList 10 3).map
        (fun L => L.map (fun c => (c.start, c.stop))) =
      .ok [(0, 10), (7, 17), (14, 24), (21, 25)] := by
  constructor
  · exact split_sliding_window_correct _ 10 3 (by norm_num)
  · simp [split, splitLoop, Except.map]

/-! ## Knowledge-graph entity table (knowledge-graph-repository.ts)

The `entities` table has `name TEXT UNIQUE`; a table state is a list of rows
and the uniqueness constraint appears as a `Nodup` hypothesis on names where
a statement needs it. -/

structure EntityRow where
  id : String
  name : String
  type : String
  count : Int
  firstSeen : Nat
  lastSeen : Nat
  tags : List String
deriving DecidableEq, Repr

/-- `KnowledgeGraphRepository.upsertEntity`, after the input defaults
(`id ?? randomUUID()`, `count ?? 0`, `firstSeen/lastSeen ?? Date.now()`,
`tags ?? []`) have been applied, so `r` is the fully determined record.
`INSERT ... ON CONFLICT(name) DO UPDATE SET type = excluded.type,
count = excluded.count, first_seen = MIN(first_seen, excluded.first_seen),
last_seen = MAX(last_seen, excluded.last_seen), tags = excluded.tags`:
on conflict the stored `id` is untouched, `type`/`count`/`tags` are replaced
by the incoming values, and the seen-range is widened. -/
def upsertEntity (db : List EntityRow) (r : EntityRow) : List EntityRow :=
  if db.any (fun e => e.name = r.name) then
    db.map (fun e =>
      if e.name = r.name then
        { e with type := r.type, count := r.count,
                 firstSeen := min e.firstSeen r.firstSeen,
                 lastSeen := max e.lastSeen r.lastSeen,
                 tags := r.tags }
      else e)
  else db ++ [r]

/-- `SELECT * FROM entities WHERE name = ? LIMIT 1`. -/
def findByName (db : List EntityRow) (name : String) : Option EntityRow :=
  db.find? (fun e => e.name = name)

/-- `SELECT * FROM entities WHERE id = ? LIMIT 1`. -/
def findEntityById (db : List EntityRow) (id : String) : Option EntityRow :=
  db.find? (fun e => e.id = id)

/-- `KnowledgeGraphRepository.updateEntityActivity`:
`UPDATE entities SET last_seen = MAX(last_seen, ?), count = count + ?
WHERE id = ?`. -/
def updateEntityActivity (db : List EntityRow) (id : String)
    (timestamp : Nat) (countIncrement : Int) : List EntityRow :=
  db.map (fun e =>
    if e.id = id then
      { e with lastSeen := max e.lastSeen timestamp,
               count := e.count + countIncrement }
    else e)

/-- `KnowledgeGraphRepository.setEntityTags`:
`UPDATE entities SET tags = ? WHERE id = ?`. -/
def setEntityTags (db : List EntityRow) (id : String) (tags : List String) :
    List EntityRow :=
  db.map (fun e => if e.id = id then { e with tags := tags } else e)

/-- Ingestion's per-entity registration
(`DefaultDocumentService.ingest`, entity loop):
`upsertEntity({ name, type, tags: [] })` with repository defaults
`count = 0`, `firstSeen = lastSeen = Date.now()`. -/
def registerEntityIngest (db : List EntityRow) (name ty newId : String)
    (now : Nat) : List EntityRow :=
  upsertEntity db ⟨newId, name, ty, 0, now, now, []⟩

/-- `DefaultKnowledgeGraphService.ensureEntities`, restricted to a single
extracted entity: upsert `{name, type, tags: []}` (so `count = 0` and both
timestamps default to `now₁`), then
`updateEntityActivity(stored.id, Date.now(), 1)` at time `now₂`.
The `none` branch is dead (the upsert guarantees the row exists); the source
would throw from `assertFound`. -/
def ensureEntity (db : List EntityRow) (name ty newId : String)
    (now₁ now₂ : Nat) : List EntityRow :=
  let db₁ := registerEntityIngest db name ty newId now₁
  match findByName db₁ name with
  | some stored => updateEntityActivity db₁ stored.id now₂ 1
  | none => db₁

/-- JS `[...new Set(l)]`: deduplicate keeping first occurrences. -/
def dedupKeepFirst (seen : List String) : List String → List String
  | [] => []
  | x :: xs =>
      if x ∈ seen then dedupKeepFirst seen xs
      else x :: dedupKeepFirst (x :: seen) xs

/-- `DefaultKnowledgeGraphService.tagEntity`: look up the entity by id, merge
the requested tags into its existing tags
(`[...new Set([...existingTags, ...parsed.tags])]`), and store the union. -/
def tagEntity (db : List EntityRow) (entityId : String) (tags : List String) :
    Except String (List EntityRow) :=
  match findEntityById db entityId with
  | none => .error ("Entity " ++ entityId ++ " not found")
  | some ent =>
      .ok (setEntityTags db entityId (dedupKeepFirst [] (ent.tags ++ tags)))

/-- With unique names, `find?` on the name returns exactly the row known to
carry that name. -/
theorem find?_name_unique {db : List EntityRow} {r : EntityRow}
    (hnd : (db.map (fun e => e.name)).Nodup) (hmem : r ∈ db) :
    db.find? (fun e => e.name = r.name) = some r := by
  induction db with
  | nil => cases hmem
  | cons hd tl ih =>
      simp only [List.map_cons, List.nodup_cons] at hnd
      rcases List.mem_cons.mp hmem with hEq | hTl
      · subst hEq
        simp [List.find?]
      · have hne : ¬ hd.name = r.name := by
          intro hcontra
          exact hnd.1 (hcontra ▸ List.mem_map_of_mem (fun e => e.name) hTl)
        rw [List.find?]
        simp only [hne, decide_eq_true_eq, decide_False]
        exact ih hnd.2 hTl

/-- A function that fixes names commutes with name lookup. -/
theorem find?_name_map (db : List EntityRow) (name : String)
    (g : EntityRow → EntityRow) (hg : ∀ e, (g e).name = e.name) :
    (db.map g).find? (fun e => e.name = name)
      = (db.find? (fun e => e.name = name)).map g := by
  induction db with
  | nil => rfl
  | cons hd tl ih =>
      by_cases h : hd.name = name
      · simp [List.find?, hg, h]
      · simp only [List.map_cons, List.find?, hg, h]
        simpa [h, hg] using ih

/-- Claim C10: upserting an entity whose name already exists keeps the stored
id but replaces `type` and the whole tag set with the incoming values; in
particular ingestion's registration (which always passes `tags: []`) erases
any tags previously stored on the row. -/
theorem upsertEntity_overwrites_type_and_tags
    (db : List EntityRow) (r : EntityRow)
    (hnd : (db.map (fun e => e.name)).Nodup) (hmem : r ∈ db)
    (rec : EntityRow) (hname : rec.name = r.name) :
    findByName (upsertEntity db rec) r.name
      = some { r with type := rec.type, count := rec.count,
                      firstSeen := min r.firstSeen rec.firstSeen,
                      lastSeen := max r.lastSeen rec.lastSeen,
                      tags := rec.tags } ∧
    ∀ ty newId now,
      findByName (registerEntityIngest db r.name ty newId now) r.name
        = some { r with type := ty, count := 0,
                        firstSeen := min r.firstSeen now,
                        lastSeen := max r.lastSeen now,
                        tags := [] } := by
  have key : ∀ kRec : EntityRow, kRec.name = r.name →
      findByName (upsertEntity db kRec) r.name
        = some { r with type := kRec.type, count := kRec.count,
                        firstSeen := min r.firstSeen kRec.firstSeen,
                        lastSeen := max r.lastSeen kRec.lastSeen,
                        tags := kRec.tags } := by
    intro kRec hk
    have hany : db.any (fun e => e.name = kRec.name) = true := by
      rw [List.any_eq_true]
      exact ⟨r, hmem, by simp [hk]⟩
    rw [upsertEntity, if_pos hany, findByName]
    rw [find?_name_map]
    · rw [find?_name_unique hnd hmem]
      simp [hk]
    · intro e
      by_cases h : e.name = kRec.name <;> simp [h]
  refine ⟨key rec hname, ?_⟩
  intro ty newId now
  exact key ⟨newId, r.name, ty, 0, now, now, []⟩ rfl

/-- Witness for C10: entity `Alice` tagged `important` via `tagEntity`; a
re-ingestion upsert with empty tags erases the tag while keeping the id. -/
theorem upsertEntity_overwrites_type_and_tags_witness :
    (findByName
        (upsertEntity [⟨"e1", "Alice", "person", 3, 10, 20, ["important"]⟩]
          ⟨"e9", "Alice", "misc", 0, 30, 30, []⟩) "Alice"
      = some ⟨"e1", "Alice", "misc", 0, 10, 30, []⟩ ∧
    ∀ ty newId now,
      findByName
          (registerEntityIngest
            [⟨"e1", "Alice", "person", 3, 10, 20, ["important"]⟩]
            "Alice" ty newId now) "Alice"
        = some ⟨"e1", "Alice", ty, 0, min 10 now, max 20 now, []⟩) ∧
    tagEntity [⟨"e1", "Alice", "person", 3, 10, 20, []⟩] "e1" ["important"]
      = .ok [⟨"e1", "Alice", "person", 3, 10, 20, ["important"]⟩] := by
  constructor
  · exact upsertEntity_overwrites_type_and_tags
      [⟨"e1", "Alice", "person", 3, 10, 20, ["important"]⟩]
      ⟨"e1", "Alice", "person", 3, 10, 20, ["important"]⟩
      (by decide) (by decide) ⟨"e9", "Alice", "misc", 0, 30, 30, []⟩ rfl
  · rfl

/-- Claim C2 counterexample: the entity `Alice` holds `count = 5`; the
`ensureEntities` upsert-plus-activity pair leaves a single row with
`firstSeen = min`, `lastSeen = max` — but `count = 1`, not `5 + 1`:
the upsert's `count = excluded.count` resets the count to the incoming
default `0` before the activity bump adds `1`. -/
theorem ensureEntity_count_reset_cex :
    findByName
        (ensureEntity [⟨"e1", "Alice", "person", 5, 10, 20, []⟩]
          "Alice" "person" "e2" 30 30) "Alice"
      = some ⟨"e1", "Alice", "person", 1, 10, 30, []⟩ ∧
    ¬ (1 : Int) = 5 + 1 := by
  constructor
  · decide
  · decide

/-- Claim C2 (amended): re-upserting an existing entity through
`ensureEntities` leaves exactly one row for the name (the table's name list
is unchanged), with `firstSeen` the minimum and `lastSeen` the maximum of the
observed timestamps and the stored id preserved — but `count` is replaced by
the incoming count (`0`) and then bumped once, ending at `1` regardless of
its previous value: a reset, not an increment. -/
theorem ensureEntity_merges_but_resets_count
    (db : List EntityRow) (r : EntityRow)
    (hnd : (db.map (fun e => e.name)).Nodup) (hmem : r ∈ db)
    (ty newId : String) (now₁ now₂ : Nat) :
    (ensureEntity db r.name ty newId now₁ now₂).map (fun e => e.name)
      = db.map (fun e => e.name) ∧
    findByName (ensureEntity db r.name ty newId now₁ now₂) r.name
      = some { r with type := ty, count := 1,
                      firstSeen := min r.firstSeen now₁,
                      lastSeen := max (max r.lastSeen now₁) now₂,
                      tags := [] } := by
  have hup := (upsertEntity_overwrites_type_and_tags db r hnd hmem
    ⟨newId, r.name, ty, 0, now₁, now₁, []⟩ rfl).1
  have hact : ∀ (db' : List EntityRow) (id : String) (ts : Nat) (inc : Int),
      (updateEntityActivity db' id ts inc).map (fun e => e.name)
        = db'.map (fun e => e.name) := by
    intro db' id ts inc
    rw [updateEntityActivity, List.map_map]
    apply List.map_congr_left
    intro e _
    by_cases h : e.id = id <;> simp [h]
  have hupName : (upsertEntity db ⟨newId, r.name, ty, 0, now₁, now₁, []⟩).map
      (fun e => e.name) = db.map (fun e => e.name) := by
    rw [upsertEntity, if_pos (List.any_eq_true.mpr ⟨r, hmem, by simp⟩)]
    rw [List.map_map]
    apply List.map_congr_left
    intro e _
    by_cases h : e.name = r.name <;> simp [h]
  have hmatch : ensureEntity db r.name ty newId now₁ now₂
      = updateEntityActivity
          (upsertEntity db ⟨newId, r.name, ty, 0, now₁, now₁, []⟩) r.id now₂ 1 := by
    simp only [ensureEntity, registerEntityIngest, hup]
  rw [hmatch]
  constructor
  · rw [hact, hupName]
  · have hfind : (upsertEntity db ⟨newId, r.name, ty, 0, now₁, now₁, []⟩).find?
        (fun e => e.name = r.name)
        = some { r with type := ty, count := 0,
                        firstSeen := min r.firstSeen now₁,
                        lastSeen := max r.lastSeen now₁,
                        tags := [] } := hup
    rw [findByName, updateEntityActivity, find?_name_map, hfind]
    · simp
    · intro e
      by_cases h : e.id = r.id <;> simp [h]

/-- Witness for C2's amended statement at a concrete table. -/
theorem ensureEntity_merges_but_resets_count_witness :
    (ensureEntity [⟨"e1", "Alice", "person", 5, 10, 20, []⟩]
        "Alice" "person" "e2" 30 31).map (fun e => e.name) = ["Alice"] ∧
    findByName
        (ensureEntity [⟨"e1", "Alice", "person", 5, 10, 20, []⟩]
          "Alice" "person" "e2" 30 31) "Alice"
      = some ⟨"e1", "Alice", "person", 1, 10, 31, []⟩ := by
  have h := ensureEntity_merges_but_resets_count
    [⟨"e1", "Alice", "person", 5, 10, 20, []⟩]
    ⟨"e1", "Alice", "person", 5, 10, 20, []⟩
    (by decide) (by decide) "person" "e2" 30 31
  simpa using h

/-! ## Hybrid search (search-service.ts, DefaultSearchService)

The vector query (vectra) and the FTS query (SQLite bm25) are external
collaborators; their ranked outputs are inputs `vectorResults`/`textResults`
here.  JS numbers carrying scores are modelled as `ℚ`. -/

structure VecMatch where
  id : String
  score : ℚ
deriving DecidableEq, Repr

/-- Intermediate `ScoredMemory { id, vectorScore?, textScore? }`. -/
structure ScoredMemory where
  id : String
  vectorScore : Option ℚ
  textScore : Option ℚ
deriving DecidableEq, Repr

/-- `#combineScores`.  JS `if (vector && text)` tests *truthiness* of the
numbers (`undefined ?? 0` first), so a present score equal to 0 falls through
to the `vector || text` branch. -/
def combineScores (r : ScoredMemory) : ℚ :=
  let vector := r.vectorScore.getD 0
  let text := r.textScore.getD 0
  if vector ≠ 0 ∧ text ≠ 0 then vector * (7/10) + text * (3/10)
  else if vector ≠ 0 then vector else text

/-- `merged.set(id, value)` on an insertion-ordered JS `Map`, as a list:
replace in place if the id is present, else append. -/
def mapSet (acc : List ScoredMemory) (r : ScoredMemory) : List ScoredMemory :=
  if acc.any (fun x => x.id = r.id) then
    acc.map (fun x => if x.id = r.id then r else x)
  else acc ++ [r]

/-- The merge step of `#collectScores`: all vector matches are `set` first
(insertion order), then each text match either raises the `textScore` of an
existing entry in place or is appended as a text-only entry. -/
def mergeScores (vectorResults textResults : List VecMatch) :
    List ScoredMemory :=
  let m₁ := vectorResults.foldl
    (fun acc m => mapSet acc ⟨m.id, some m.score, none⟩) []
  textResults.foldl
    (fun acc m =>
      if acc.any (fun x => x.id = m.id) then
        acc.map (fun x =>
          if x.id = m.id then
            { x with textScore := some (max (x.textScore.getD 0) m.score) }
          else x)
      else acc ++ [⟨m.id, none, some m.score⟩]) m₁

/-- Insertion into a descending-sorted list: skip entries with strictly
greater combined score, land before ties.  Together with `sortDesc` this is
the unique stable descending order that ES2019+ `Array.prototype.sort`
guarantees for the comparator `(a, b) => combine(b) - combine(a)`. -/
def insertDesc (x : ScoredMemory) : List ScoredMemory → List ScoredMemory
  | [] => [x]
  | y :: ys =>
      if combineScores x < combineScores y then y :: insertDesc x ys
      else x :: y :: ys

/-- Stable descending sort by combined score (model of the `\x7b.sort(...)\x7d`
call in `#collectScores`). -/
def sortDesc : List ScoredMemory → List ScoredMemory
  | [] => []
  | x :: xs => insertDesc x (sortDesc xs)

/-- A memory row, as far as hydration is concerned. -/
structure MemoryRow where
  id : String
  content : String
deriving DecidableEq, Repr

/-- One hydrated search result. -/
structure HybridResult where
  id : String
  score : ℚ
  vectorScore : Option ℚ
  textScore : Option ℚ
  source : String
deriving DecidableEq, Repr

/-- `#resolveSource` (same JS truthiness on the optional scores). -/
def resolveSource (r : ScoredMemory) : String :=
  let vector := r.vectorScore.getD 0
  let text := r.textScore.getD 0
  if vector ≠ 0 ∧ text ≠ 0 then "vector"
  else if vector ≠ 0 then "vector"
  else if text ≠ 0 then "text"
  else "graph"

/-- `DefaultSearchService.searchMemories`: merge, sort (stable), truncate to
`topK`, then hydrate each surviving id from the memories table, silently
skipping ids whose row is missing. -/
def searchMemories (memories : List MemoryRow)
    (vectorResults textResults : List VecMatch) (topK : Nat) :
    List HybridResult :=
  ((sortDesc (mergeScores vectorResults textResults)).take topK).filterMap
    (fun r => (memories.find? (fun m => m.id = r.id)).map
      (fun m => ⟨m.id, combineScores r, r.vectorScore, r.textScore,
                 resolveSource r⟩))

/-- Claim C6 counterexample: a memory id returned by the vector query with
score 0 and by the text query with score 1/2 carries both scores after the
merge, yet its combined score is 1/2 — the truthiness fallback — not
0·0.7 + (1/2)·0.3 = 3/20. -/
theorem combineScores_zero_vector_cex :
    mergeScores [⟨"m", 0⟩] [⟨"m", 1/2⟩] = [⟨"m", some 0, some (1/2)⟩] ∧
    combineScores ⟨"m", some 0, some (1/2)⟩ = 1/2 ∧
    ¬ ((1 : ℚ)/2) = 0 * (7/10) + (1/2) * (3/10) := by
  have hmax : max (0 : ℚ) (1/2) = 1/2 := max_eq_right (by norm_num)
  refine ⟨by norm_num [mergeScores, mapSet, hmax], ?_, by norm_num⟩
  norm_num [combineScores]

/-- Claim C6 (amended): for every merged hybrid-search result, if both scores
are present and nonzero the combined score is 0.7·vector + 0.3·text; if only
one score is present the combined score is that score (also when it is 0);
but a present score of 0 is treated as absent: with both present and
vector = 0 the combined score is the text score, and with text = 0 it is the
vector score. -/
theorem combineScores_cases (vectorResults textResults : List VecMatch)
    (r : ScoredMemory) (hr : r ∈ mergeScores vectorResults textResults) :
    (∀ v t, r.vectorScore = some v → r.textScore = some t → ¬ v = 0 → ¬ t = 0 →
      combineScores r = v * (7/10) + t * (3/10)) ∧
    (∀ v, r.vectorScore = some v → r.textScore = none → combineScores r = v) ∧
    (∀ t, r.vectorScore = none → r.textScore = some t → combineScores r = t) ∧
    (∀ t, r.vectorScore = some 0 → r.textScore = some t → combineScores r = t) ∧
    (∀ v, r.vectorScore = some v → r.textScore = some 0 → combineScores r = v) := by
  clear hr
  refine ⟨?_, ?_, ?_, ?_, ?_⟩
  · intro v t hv ht hv0 ht0
    simp [combineScores, hv, ht, hv0, ht0]
  · intro v hv ht
    by_cases hv0 : v = 0 <;> simp [combineScores, hv, ht, hv0]
  · intro t hv ht
    by_cases ht0 : t = 0 <;> simp [combineScores, hv, ht, ht0]
  · intro t hv ht
    by_cases ht0 : t = 0 <;> simp [combineScores, hv, ht, ht0]
  · intro v hv ht
    by_cases hv0 : v = 0 <;> simp [combineScores, hv, ht, hv0]

/-- Witness for C6's amended statement: id `a` carries vector score 1/2 and
text score 1/4 after the merge; its combined score is the weighted sum. -/
theorem combineScores_cases_witness :
    (⟨"a", some (1/2), some (1/4)⟩ : ScoredMemory) ∈
        mergeScores [⟨"a", 1/2⟩] [⟨"a", 1/4⟩] ∧
    combineScores ⟨"a", some (1/2), some (1/4)⟩
      = (1/2) * (7/10) + (1/4) * (3/10) := by
  have hmax : max (0 : ℚ) (1/4) = 1/4 := max_eq_right (by norm_num)
  have hmerge : mergeScores [⟨"a", 1/2⟩] [⟨"a", 1/4⟩]
      = [⟨"a", some (1/2), some (1/4)⟩] := by
    norm_num [mergeScores, mapSet, hmax]
  refine ⟨by rw [hmerge]; exact List.mem_singleton_self _, ?_⟩
  exact (combineScores_cases [⟨"a", 1/2⟩] [⟨"a", 1/4⟩] _
    (by rw [hmerge]; exact List.mem_singleton_self _)).1
    (1/2) (1/4) rfl rfl (by norm_num) (by norm_num)

/-- Inserting an element leaves the previous list as a sublist. -/
theorem sublist_insertDesc (x : ScoredMemory) (l : List ScoredMemory) :
    List.Sublist l (insertDesc x l) := by
  induction l with
  | nil => simp [insertDesc]
  | cons y ys ih =>
      rw [insertDesc]
      by_cases h : combineScores x < combineScores y
      · rw [if_pos h]
        exact List.Sublist.cons₂ y ih
      · rw [if_neg h]
        exact List.sublist_cons_self x (y :: ys)

/-- Membership in an insertion. -/
theorem mem_insertDesc {z x : ScoredMemory} {l : List ScoredMemory} :
    z ∈ insertDesc x l ↔ z = x ∨ z ∈ l := by
  induction l with
  | nil => simp [insertDesc]
  | cons y ys ih =>
      rw [insertDesc]
      by_cases h : combineScores x < combineScores y
      · rw [if_pos h]
        simp only [List.mem_cons, ih]
        tauto
      · rw [if_neg h]
        simp only [List.mem_cons]

/-- Insertion preserves descending sortedness. -/
theorem insertDesc_sorted (x : ScoredMemory) (l : List ScoredMemory)
    (hl : l.Pairwise (fun a b => combineScores b ≤ combineScores a)) :
    (insertDesc x l).Pairwise (fun a b => combineScores b ≤ combineScores a) := by
  induction l with
  | nil => simp [insertDesc]
  | cons y ys ih =>
      rw [List.pairwise_cons] at hl
      rw [insertDesc]
      by_cases h : combineScores x < combineScores y
      · rw [if_pos h]
        rw [List.pairwise_cons]
        refine ⟨?_, ih hl.2⟩
        intro z hz
        rcases mem_insertDesc.mp hz with hz | hz
        · subst hz
          exact le_of_lt h
        · exact hl.1 z hz
      · rw [if_neg h]
        rw [List.pairwise_cons]
        refine ⟨?_, List.pairwise_cons.mpr hl⟩
        intro z hz
        rcases List.mem_cons.mp hz with hz | hz
        · subst hz
          exact le_of_not_lt h
        · exact le_trans (hl.1 z hz) (le_of_not_lt h)

/-- The sort output is sorted descending by combined score. -/
theorem sortDesc_sorted (l : List ScoredMemory) :
    (sortDesc l).Pairwise (fun a b => combineScores b ≤ combineScores a) := by
  induction l with
  | nil => simp [sortDesc]
  | cons x xs ih => exact insertDesc_sorted x (sortDesc xs) ih

/-- An element inserted into a descending-sorted list lands before every
element that does not strictly exceed it — in particular before ties. -/
theorem insertDesc_before_ties {a b : ScoredMemory} {l : List ScoredMemory}
    (hl : l.Pairwise (fun x y => combineScores y ≤ combineScores x))
    (hb : b ∈ l) (hba : ¬ combineScores a < combineScores b) :
    List.Sublist [a, b] (insertDesc a l) := by
  induction l with
  | nil => cases hb
  | cons y ys ih =>
      rw [List.pairwise_cons] at hl
      rw [insertDesc]
      by_cases h : combineScores a < combineScores y
      · rw [if_pos h]
        rcases List.mem_cons.mp hb with hby | hby
        · exact absurd (hby ▸ h) hba
        · exact List.Sublist.cons y (ih hl.2 hby)
      · rw [if_neg h]
        rcases List.mem_cons.mp hb with hby | hby
        · subst hby
          exact List.Sublist.cons₂ a
            (List.Sublist.cons₂ b (List.nil_sublist ys))
        · exact List.Sublist.cons₂ a
            (List.singleton_sublist.mpr (List.mem_cons_of_mem y hby))

/-- Membership transfers into the sort. -/
theorem mem_sortDesc {z : ScoredMemory} {l : List ScoredMemory} (hz : z ∈ l) :
    z ∈ sortDesc l := by
  induction l with
  | nil => cases hz
  | cons x xs ih =>
      rw [sortDesc]
      rcases List.mem_cons.mp hz with hzx | hzx
      · exact mem_insertDesc.mpr (Or.inl hzx)
      · exact mem_insertDesc.mpr (Or.inr (ih hzx))

/-- Stability of the sort on ties: two entries with equal combined scores
keep their relative order. -/
theorem sortDesc_stable {a b : ScoredMemory} {l : List ScoredMemory}
    (hab : List.Sublist [a, b] l) (heq : combineScores a = combineScores b) :
    List.Sublist [a, b] (sortDesc l) := by
  induction l with
  | nil => cases hab
  | cons x xs ih =>
      rw [sortDesc]
      cases hab with
      | cons _ htl =>
          exact (ih htl).trans (sublist_insertDesc x (sortDesc xs))
      | cons₂ _ htl =>
          exact insertDesc_before_ties (sortDesc_sorted xs)
            (mem_sortDesc (htl.subset (List.mem_singleton_self b)))
            (by rw [heq]; exact lt_irrefl _)

/-- All entries produced by the vector pass carry a vector score. -/
theorem mergeScores_vector_pass_some (vectorResults : List VecMatch) :
    ∀ x ∈ vectorResults.foldl
      (fun acc m => mapSet acc ⟨m.id, some m.score, none⟩) ([] : List ScoredMemory),
      x.vectorScore.isSome := by
  suffices h : ∀ (acc : List ScoredMemory), (∀ x ∈ acc, x.vectorScore.isSome) →
      ∀ x ∈ vectorResults.foldl (fun acc m => mapSet acc ⟨m.id, some m.score, none⟩) acc,
        x.vectorScore.isSome by
    exact h [] (by simp)
  induction vectorResults with
  | nil => intro acc hacc; simpa using hacc
  | cons m ms ih =>
      intro acc hacc
      rw [List.foldl_cons]
      refine ih (mapSet acc ⟨m.id, some m.score, none⟩) ?_
      intro x hx
      rw [mapSet] at hx
      by_cases h : acc.any (fun x => x.id = m.id)
      · rw [if_pos h] at hx
        obtain ⟨y, hy, hyx⟩ := List.mem_map.mp hx
        by_cases hid : y.id = m.id
        · rw [if_pos hid] at hyx
          subst hyx
          rfl
        · rw [if_neg hid] at hyx
          exact hyx ▸ hacc y hy
      · rw [if_neg h] at hx
        rcases List.mem_append.mp hx with hx | hx
        · exact hacc x hx
        · simp at hx
          subst hx
          rfl

/-- The merge keeps every vector-discovered entry (vector score present)
before every text-only entry (vector score absent). -/
theorem mergeScores_vector_before_text (vectorResults textResults : List VecMatch) :
    (mergeScores vectorResults textResults).Pairwise
      (fun x y => x.vectorScore = none → y.vectorScore = none) := by
  have step : ∀ (ms : List VecMatch) (acc : List ScoredMemory),
      acc.Pairwise (fun x y => x.vectorScore = none → y.vectorScore = none) →
      (ms.foldl (fun acc m =>
        if acc.any (fun x => x.id = m.id) then
          acc.map (fun x =>
            if x.id = m.id then
              { x with textScore := some (max (x.textScore.getD 0) m.score) }
            else x)
        else acc ++ [⟨m.id, none, some m.score⟩]) acc).Pairwise
        (fun x y => x.vectorScore = none → y.vectorScore = none) := by
    intro ms
    induction ms with
    | nil => intro acc hacc; simpa using hacc
    | cons m ms ih =>
        intro acc hacc
        rw [List.foldl_cons]
        apply ih
        by_cases h : acc.any (fun x => x.id = m.id)
        · rw [if_pos h]
          have hpres : ∀ (x : ScoredMemory),
              ((if x.id = m.id then
                  { x with textScore := some (max (x.textScore.getD 0) m.score) }
                else x) : ScoredMemory).vectorScore = x.vectorScore := by
            intro x
            by_cases hid : x.id = m.id <;> simp [hid]
          refine List.Pairwise.map _ ?_ hacc
          intro a b hp
          rw [hpres a, hpres b]
          exact hp
        · rw [if_neg h]
          rw [List.pairwise_append]
          refine ⟨hacc, List.pairwise_singleton _ _, ?_⟩
          intro a _ b hb _
          simp at hb
          subst hb
          rfl
  have hsome := mergeScores_vector_pass_some vectorResults
  have hbase : ∀ (l : List ScoredMemory), (∀ x ∈ l, x.vectorScore.isSome) →
      l.Pairwise (fun x y => x.vectorScore = none → y.vectorScore = none) := by
    intro l
    induction l with
    | nil => intro _; exact List.Pairwise.nil
    | cons x xs ih =>
        intro hl
        rw [List.pairwise_cons]
        refine ⟨?_, ih (fun y hy => hl y (List.mem_cons_of_mem x hy))⟩
        intro y _ hx
        have := hl x (List.mem_cons_self x xs)
        rw [hx] at this
        cases this
  rw [mergeScores]
  exact step textResults _ (hbase _ hsome)

/-- Claim C7: equal combined scores keep the merge-step order in the final
ranking (the sort is stable), and the merge step always places
vector-discovered ids before text-only ids. -/
theorem searchMemories_tie_break (vectorResults textResults : List VecMatch)
    (a b : ScoredMemory)
    (hab : List.Sublist [a, b] (mergeScores vectorResults textResults))
    (heq : combineScores a = combineScores b) :
    List.Sublist [a, b] (sortDesc (mergeScores vectorResults textResults)) ∧
    (mergeScores vectorResults textResults).Pairwise
      (fun x y => x.vectorScore = none → y.vectorScore = none) :=
  ⟨sortDesc_stable hab heq, mergeScores_vector_before_text _ _⟩

/-- Witness for C7 at the spec's scenario: one memory matched only by vector
at 0.9, one only by text at 0.9, `topK = 2`: both appear in the final result
and the vector-only match sorts above the text-only match. -/
theorem searchMemories_tie_break_witness :
    (List.Sublist [⟨"v1", some (9/10), none⟩, ⟨"t1", none, some (9/10)⟩]
        (sortDesc (mergeScores [⟨"v1", 9/10⟩] [⟨"t1", 9/10⟩])) ∧
      (mergeScores [⟨"v1", 9/10⟩] [⟨"t1", 9/10⟩]).Pairwise
        (fun x y => x.vectorScore = none → y.vectorScore = none)) ∧
    searchMemories [⟨"v1", "only vector"⟩, ⟨"t1", "only text"⟩]
        [⟨"v1", 9/10⟩] [⟨"t1", 9/10⟩] 2
      = [⟨"v1", 9/10, some (9/10), none, "vector"⟩,
         ⟨"t1", 9/10, none, some (9/10), "text"⟩] := by
  have hmerge : mergeScores [⟨"v1", 9/10⟩] [⟨"t1", 9/10⟩]
      = [⟨"v1", some (9/10), none⟩, ⟨"t1", none, some (9/10)⟩] := by
    norm_num [mergeScores, mapSet]
    all_goals decide
  constructor
  · exact searchMemories_tie_break [⟨"v1", 9/10⟩] [⟨"t1", 9/10⟩]
      ⟨"v1", some (9/10), none⟩ ⟨"t1", none, some (9/10)⟩
      (by rw [hmerge]) (by norm_num [combineScores])
  · norm_num [searchMemories, mergeScores, mapSet, sortDesc, insertDesc,
      combineScores, resolveSource, List.find?]
    simp only [List.filterMap_cons, List.filterMap_nil]
    norm_num
    rfl

/-! ## Knowledge-graph traversal (knowledge-graph-service.ts)

Edges live in the `kg_edges` table.  The `weight`/`metadata` columns play no
role in any traversal and are omitted from the row model. -/

structure Edge where
  id : String
  src : String
  dst : String
  relation : String
  createdAt : Nat
deriving DecidableEq, Repr

/-- `listEdgesForEntity`: `WHERE src = ? OR dst = ?`.  The SQL orders by
`created_at DESC`; none of the verified claims depends on adjacency order,
so the table order is kept. -/
def listEdgesForEntity (edges : List Edge) (entityId : String) : List Edge :=
  edges.filter (fun e => e.src = entityId || e.dst = entityId)

/-- `getEdgesByEntityAndType`: the same query with an optional
`AND relation = ?`. -/
def getEdgesByEntityAndType (edges : List Edge) (entityId : String)
    (relationType : Option String) : List Edge :=
  match relationType with
  | some r =>
      edges.filter (fun e => (e.src = entityId || e.dst = entityId)
        && e.relation = r)
  | none => listEdgesForEntity edges entityId

/-- `edge.src === entityId ? edge.dst : edge.src`. -/
def otherEnd (e : Edge) (entityId : String) : String :=
  if e.src = entityId then e.dst else e.src

/-! ### readGraph (bounded BFS neighborhood expansion) -/

/-- State threaded through one level of `readGraph`'s loop. -/
structure LevelState where
  visited : List String
  neighbors : List EntityRow
  nextLevel : List String
deriving Repr

/-- The inner `for (const edge of edges)` loop of `readGraph`: each unvisited
far endpoint is marked visited; if its row exists it is appended to the
neighbor list and, when the gate `depth < parsed.depth - 1` held, scheduled
for the next level. -/
def visitEdges (entities : List EntityRow) (entityId : String) (gate : Bool) :
    List Edge → LevelState → LevelState
  | [], st => st
  | e :: es, st =>
      let neighborId := otherEnd e entityId
      if neighborId ∈ st.visited then visitEdges entities entityId gate es st
      else
        match findEntityById entities neighborId with
        | some nb =>
            visitEdges entities entityId gate es
              ⟨neighborId :: st.visited, st.neighbors ++ [nb],
               if gate then st.nextLevel ++ [neighborId] else st.nextLevel⟩
        | none =>
            visitEdges entities entityId gate es
              ⟨neighborId :: st.visited, st.neighbors, st.nextLevel⟩

/-- The `for (const entityId of currentLevel)` loop of `readGraph`. -/
def visitLevel (entities : List EntityRow) (edges : List Edge)
    (relationType : Option String) (gate : Bool) :
    List String → LevelState → LevelState
  | [], st => st
  | n :: ns, st =>
      visitLevel entities edges relationType gate ns
        (visitEdges entities n gate (getEdgesByEntityAndType edges n relationType) st)

/-- `readGraph`'s `while (depth < parsed.depth && currentLevel.length > 0)`
loop.  Termination is by the explicit depth counter, exactly as in the
source. -/
def readGraphLoop (entities : List EntityRow) (edges : List Edge)
    (relationType : Option String) (totalDepth : Nat) :
    Nat → List String → List String → List EntityRow → List EntityRow
  | depth, currentLevel, visited, neighbors =>
    if depth < totalDepth ∧ currentLevel ≠ [] then
      let st := visitLevel entities edges relationType
        (decide (depth < totalDepth - 1)) currentLevel ⟨visited, neighbors, []⟩
      readGraphLoop entities edges relationType totalDepth
        (depth + 1) st.nextLevel st.visited st.neighbors
    else neighbors
termination_by depth => totalDepth - depth
decreasing_by omega

/-- Result shape of `readGraph`. -/
structure GraphSnapshot where
  entity : EntityRow
  relations : List Edge
  neighbors : List EntityRow
deriving Repr

/-- `DefaultKnowledgeGraphService.readGraph`: request validation (the zod
schema requires `depth` an integer in `[1, 5]`), root lookup (`NotFound`
error), the root's direct relations, and the BFS neighbor collection
starting from `visited = {entityId}`, `currentLevel = [entityId]`. -/
def readGraph (entities : List EntityRow) (edges : List Edge)
    (entityId : String) (depth : Nat) (relationType : Option String) :
    Except String GraphSnapshot :=
  if 1 ≤ depth ∧ depth ≤ 5 then
    match findEntityById entities entityId with
    | none => .error ("Entity " ++ entityId ++ " not found")
    | some entity =>
        .ok ⟨entity, getEdgesByEntityAndType edges entityId relationType,
             readGraphLoop entities edges relationType depth 0
               [entityId] [entityId] []⟩
  else .error "validation: depth out of range"

/-- Invariant carried by `readGraph`'s BFS state: collected neighbor ids are
distinct, recorded in the visited set, and never the root. -/
def LevelInv (root : String) (st : LevelState) : Prop :=
  (st.neighbors.map (fun e => e.id)).Nodup ∧
  (∀ nb ∈ st.neighbors, nb.id ∈ st.visited) ∧
  root ∈ st.visited ∧
  (∀ nb ∈ st.neighbors, ¬ nb.id = root)

/-- `visitEdges` preserves the invariant. -/
theorem visitEdges_inv (entities : List EntityRow) (entityId root : String)
    (gate : Bool) :
    ∀ (es : List Edge) (st : LevelState), LevelInv root st →
      LevelInv root (visitEdges entities entityId gate es st) := by
  intro es
  induction es with
  | nil => intro st h; exact h
  | cons e es ih =>
      intro st h
      rw [visitEdges]
      by_cases hmem : otherEnd e entityId ∈ st.visited
      · rw [if_pos hmem]
        exact ih st h
      · rw [if_neg hmem]
        obtain ⟨hnd, hsub, hroot, hnr⟩ := h
        cases hfind : findEntityById entities (otherEnd e entityId) with
        | none =>
            apply ih
            exact ⟨hnd, fun nb hnb => List.mem_cons_of_mem _ (hsub nb hnb),
              List.mem_cons_of_mem _ hroot, hnr⟩
        | some nb =>
            apply ih
            have hnbid : nb.id = otherEnd e entityId := by
              have := List.find?_some hfind
              simpa using this
            refine ⟨?_, ?_, List.mem_cons_of_mem _ hroot, ?_⟩
            · rw [List.map_append]
              rw [List.nodup_append]
              refine ⟨hnd, by simp, ?_⟩
              intro x hx
              simp only [List.map_cons, List.map_nil, List.mem_singleton]
              intro hxe
              obtain ⟨y, hy, hyx⟩ := List.mem_map.mp hx
              subst hxe
              have hvy := hsub y hy
              rw [hyx, hnbid] at hvy
              exact hmem hvy
            · intro nb' hnb'
              rcases List.mem_append.mp hnb' with hnb' | hnb'
              · exact List.mem_cons_of_mem _ (hsub nb' hnb')
              · simp at hnb'
                subst hnb'
                rw [hnbid]
                exact List.mem_cons_self _ _
            · intro nb' hnb'
              rcases List.mem_append.mp hnb' with hnb' | hnb'
              · exact hnr nb' hnb'
              · simp at hnb'
                subst hnb'
                rw [hnbid]
                intro hcontra
                exact hmem (hcontra ▸ hroot)

/-- `visitLevel` preserves the invariant. -/
theorem visitLevel_inv (entities : List EntityRow) (edges : List Edge)
    (relationType : Option String) (gate : Bool) (root : String) :
    ∀ (level : List String) (st : LevelState), LevelInv root st →
      LevelInv root (visitLevel entities edges relationType gate level st) := by
  intro level
  induction level with
  | nil => intro st h; exact h
  | cons n ns ih =>
      intro st h
      rw [visitLevel]
      exact ih _ (visitEdges_inv entities n root gate _ st h)

/-- `readGraphLoop` preserves the invariant down to its result. -/
theorem readGraphLoop_inv (entities : List EntityRow) (edges : List Edge)
    (relationType : Option String) (totalDepth : Nat) (root : String) :
    ∀ n depth currentLevel visited neighbors,
      totalDepth - depth ≤ n →
      LevelInv root ⟨visited, neighbors, []⟩ →
      ((readGraphLoop entities edges relationType totalDepth depth currentLevel
          visited neighbors).map (fun e => e.id)).Nodup ∧
      (∀ nb ∈ readGraphLoop entities edges relationType totalDepth depth
          currentLevel visited neighbors, ¬ nb.id = root) := by
  intro n
  induction n with
  | zero =>
      intro depth currentLevel visited neighbors hn h
      rw [readGraphLoop, if_neg (by omega)]
      exact ⟨h.1, h.2.2.2⟩
  | succ n ih =>
      intro depth currentLevel visited neighbors hn h
      rw [readGraphLoop]
      by_cases hc : depth < totalDepth ∧ currentLevel ≠ []
      · rw [if_pos hc]
        have hst := visitLevel_inv entities edges relationType
          (decide (depth < totalDepth - 1)) root currentLevel
          ⟨visited, neighbors, []⟩ h
        have hst' : LevelInv root
            ⟨(visitLevel entities edges relationType
                (decide (depth < totalDepth - 1)) currentLevel
                ⟨visited, neighbors, []⟩).visited,
              (visitLevel entities edges relationType
                (decide (depth < totalDepth - 1)) currentLevel
                ⟨visited, neighbors, []⟩).neighbors, []⟩ := by
          obtain ⟨a, b, c, d⟩ := hst
          exact ⟨a, b, c, d⟩
        exact ih (depth + 1) _ _ _ (by omega) hst'
      · rw [if_neg hc]
        exact ⟨h.1, h.2.2.2⟩

/-- Claim C9: `readGraph` terminates on every finite graph (its loop is
bounded by the depth counter, mirrored here by a total function) and each
discovered entity appears at most once in the returned neighbor list; the
root itself never does. -/
theorem readGraph_neighbors_nodup (entities : List EntityRow)
    (edges : List Edge) (entityId : String) (depth : Nat)
    (relationType : Option String) (snap : GraphSnapshot)
    (h : readGraph entities edges entityId depth relationType = .ok snap) :
    (snap.neighbors.map (fun e => e.id)).Nodup ∧
    ∀ nb ∈ snap.neighbors, ¬ nb.id = entityId := by
  rw [readGraph] at h
  by_cases hd : 1 ≤ depth ∧ depth ≤ 5
  · rw [if_pos hd] at h
    cases hfind : findEntityById entities entityId with
    | none => rw [hfind] at h; cases h
    | some entity =>
        rw [hfind] at h
        have hinv : LevelInv entityId ⟨[entityId], [], []⟩ := by
          refine ⟨List.nodup_nil, by simp, List.mem_singleton_self _, by simp⟩
        have := readGraphLoop_inv entities edges relationType depth entityId
          (depth - 0) 0 [entityId] [entityId] [] (by omega) hinv
        cases h
        exact this
  · rw [if_neg hd] at h
    cases h

/-- Witness for C9 at the spec's cyclic example `A→B→C→A` with `depth = 3`:
the loop terminates with neighbors exactly `[B, C]`, each at most once and
without the root `A`. -/
theorem readGraph_neighbors_nodup_witness :
    ∃ snap, readGraph
        [⟨"A", "A", "t", 0, 0, 0, []⟩, ⟨"B", "B", "t", 0, 0, 0, []⟩,
         ⟨"C", "C", "t", 0, 0, 0, []⟩]
        [⟨"e1", "A", "B", "r", 0⟩, ⟨"e2", "B", "C", "r", 0⟩,
         ⟨"e3", "C", "A", "r", 0⟩]
        "A" 3 none = .ok snap ∧
      snap.neighbors = [⟨"B", "B", "t", 0, 0, 0, []⟩, ⟨"C", "C", "t", 0, 0, 0, []⟩] ∧
      (snap.neighbors.map (fun e => e.id)).Nodup ∧
      ∀ nb ∈ snap.neighbors, ¬ nb.id = "A" := by
  have hrun : readGraph
      [⟨"A", "A", "t", 0, 0, 0, []⟩, ⟨"B", "B", "t", 0, 0, 0, []⟩,
       ⟨"C", "C", "t", 0, 0, 0, []⟩]
      [⟨"e1", "A", "B", "r", 0⟩, ⟨"e2", "B", "C", "r", 0⟩,
       ⟨"e3", "C", "A", "r", 0⟩]
      "A" 3 none
      = .ok ⟨⟨"A", "A", "t", 0, 0, 0, []⟩,
             [⟨"e1", "A", "B", "r", 0⟩, ⟨"e3", "C", "A", "r", 0⟩],
             [⟨"B", "B", "t", 0, 0, 0, []⟩, ⟨"C", "C", "t", 0, 0, 0, []⟩]⟩ := by
    simp [readGraph, readGraphLoop, visitLevel, visitEdges, findEntityById,
      getEdgesByEntityAndType, listEdgesForEntity, otherEnd, List.find?]
  refine ⟨_, hrun, rfl, ?_⟩
  exact readGraph_neighbors_nodup _ _ _ _ _ _ hrun

/-! ### findPath (breadth-first shortest path, undirected traversal) -/

/-- A queue entry of `findPath`'s BFS: `{ entityId, path }`. -/
structure QEntry where
  node : String
  path : List Edge
deriving DecidableEq, Repr

/-- Undirected walk predicate: `chainB edges a b p` holds when `p` is a
sequence of table edges leading from `a` to `b`, each traversed in either
direction exactly as the BFS does (`otherEnd`). -/
def chainB (edges : List Edge) : String → String → List Edge → Bool
  | a, b, [] => decide (a = b)
  | a, b, e :: p =>
      decide (e ∈ edges) && (decide (e.src = a) || decide (e.dst = a))
        && chainB edges (otherEnd e a) b p

/-- The `for (const edge of edges)` body of `findPath`'s BFS: every unvisited
far endpoint (`nextEntityId`) is marked visited and pushed (at the back of
the queue) with the extended path `[...path, edge]`. -/
def expand (entityId : String) (path : List Edge) :
    List Edge → List String → List QEntry → List String × List QEntry
  | [], visited, queue => (visited, queue)
  | e :: es, visited, queue =>
      if otherEnd e entityId ∈ visited then expand entityId path es visited queue
      else expand entityId path es (otherEnd e entityId :: visited)
        (queue ++ [⟨otherEnd e entityId, path ++ [e]⟩])

/-- All endpoint names occurring in the edge table (used only for the
termination measure of the loop). -/
def univNodes (edges : List Edge) : List String :=
  edges.foldr (fun e acc => e.src :: e.dst :: acc) []

/-- Termination measure of the BFS loop: every enqueue also marks a
previously unvisited table endpoint visited, so twice the count of unvisited
endpoints plus the queue length strictly decreases at every iteration. -/
def bfsMeasure (edges : List Edge) (visited : List String)
    (queue : List QEntry) : Nat :=
  2 * ((univNodes edges).filter (fun x => decide (x ∉ visited))).length
    + queue.length

/-- A filter by a pointwise-stronger predicate is at most as long. -/
theorem length_filter_mono {α : Type} (l : List α) (p q : α → Bool)
    (h : ∀ x, p x = true → q x = true) :
    (l.filter p).length ≤ (l.filter q).length := by
  induction l with
  | nil => simp
  | cons y ys ih =>
      by_cases hy : p y = true
      · rw [List.filter_cons_of_pos hy, List.filter_cons_of_pos (h y hy)]
        simpa using ih
      · rw [List.filter_cons_of_neg (by simpa using hy)]
        by_cases hy' : q y = true
        · rw [List.filter_cons_of_pos hy']
          exact le_trans ih (by simp)
        · rw [List.filter_cons_of_neg (by simpa using hy')]
          exact ih

/-- Visiting one more node strictly shrinks the unvisited-endpoint count. -/
theorem filter_not_mem_cons_lt (univ : List String) (visited : List String)
    (v : String) (hv : v ∈ univ) (hnv : v ∉ visited) :
    (univ.filter (fun x => decide (x ∉ v :: visited))).length
      < (univ.filter (fun x => decide (x ∉ visited))).length := by
  induction univ with
  | nil => cases hv
  | cons y ys ih =>
      by_cases hyv : y = v
      · subst hyv
        rw [List.filter_cons_of_neg (by simp), List.filter_cons_of_pos (by simpa using hnv)]
        have := length_filter_mono ys
          (fun x => decide (x ∉ y :: visited)) (fun x => decide (x ∉ visited))
          (by intro x hx; simp at hx ⊢; exact hx.2)
        simp only [List.length_cons]
        omega
      · have hv' : v ∈ ys := by
          rcases List.mem_cons.mp hv with h | h
          · exact absurd h.symm hyv
          · exact h
        by_cases hy : y ∈ visited
        · rw [List.filter_cons_of_neg (by simp [hy]),
            List.filter_cons_of_neg (by simp [hy])]
          exact ih hv'
        · rw [List.filter_cons_of_pos (by simp [List.mem_cons, hyv, hy]),
            List.filter_cons_of_pos (by simpa using hy)]
          simpa using ih hv'

/-- Far endpoints of table edges occur among the table endpoints. -/
theorem otherEnd_mem_univNodes {edges : List Edge} {e : Edge} (he : e ∈ edges)
    (entityId : String) : otherEnd e entityId ∈ univNodes edges := by
  induction edges with
  | nil => cases he
  | cons f fs ih =>
      have hstep : univNodes (f :: fs) = f.src :: f.dst :: univNodes fs := rfl
      rw [hstep]
      rcases List.mem_cons.mp he with h | h
      · subst h
        rw [otherEnd]
        by_cases hsrc : e.src = entityId
        · rw [if_pos hsrc]
          exact List.mem_cons_of_mem _ (List.mem_cons_self _ _)
        · rw [if_neg hsrc]
          exact List.mem_cons_self _ _
      · exact List.mem_cons_of_mem _ (List.mem_cons_of_mem _ (ih h))

/-- `expand` never increases the BFS measure. -/
theorem expand_measure (edges : List Edge) (entityId : String)
    (path : List Edge) :
    ∀ (es : List Edge), (∀ e ∈ es, e ∈ edges) →
      ∀ (visited : List String) (queue : List QEntry),
        bfsMeasure edges (expand entityId path es visited queue).1
            (expand entityId path es visited queue).2
          ≤ bfsMeasure edges visited queue := by
  intro es
  induction es with
  | nil => intro _ visited queue; exact le_refl _
  | cons e es ih =>
      intro hsub visited queue
      rw [expand]
      by_cases hmem : otherEnd e entityId ∈ visited
      · rw [if_pos hmem]
        exact ih (fun x hx => hsub x (List.mem_cons_of_mem e hx)) visited queue
      · rw [if_neg hmem]
        refine le_trans (ih (fun x hx => hsub x (List.mem_cons_of_mem e hx)) _ _) ?_
        have hu := otherEnd_mem_univNodes (hsub e (List.mem_cons_self e es)) entityId
        have hlt := filter_not_mem_cons_lt (univNodes edges) visited
          (otherEnd e entityId) hu hmem
        rw [bfsMeasure, bfsMeasure]
        simp only [List.length_append, List.length_cons, List.length_nil]
        omega

/-- `findPath`'s `while (queue.length > 0)` loop: dequeue from the front
(`queue.shift()`), return the recorded path on reaching `dst`, drop entries
whose path already has `maxDepth` edges, otherwise expand along all incident
edges.  Returns `[]` when the queue empties. -/
def bfsLoop (edges : List Edge) (dstId : String) (maxDepth : Nat) :
    List QEntry → List String → List Edge
  | [], _ => []
  | qe :: rest, visited =>
      if qe.node = dstId then qe.path
      else if maxDepth ≤ qe.path.length then
        bfsLoop edges dstId maxDepth rest visited
      else
        bfsLoop edges dstId maxDepth
          (expand qe.node qe.path (listEdgesForEntity edges qe.node) visited rest).2
          (expand qe.node qe.path (listEdgesForEntity edges qe.node) visited rest).1
termination_by queue visited => bfsMeasure edges visited queue
decreasing_by
  · simp only [bfsMeasure, List.length_cons]
    omega
  · have hm := expand_measure edges qe.node qe.path
      (listEdgesForEntity edges qe.node)
      (fun e he => List.mem_of_mem_filter he) visited rest
    simp only [bfsMeasure, List.length_cons] at hm ⊢
    omega

/-- `DefaultKnowledgeGraphService.findPath`: request validation (the zod
schema requires `maxDepth` an integer in `[1, 10]`), existence checks for
both endpoints, then the BFS from `{ entityId: src, path: [] }` with
`visited = {src}`. -/
def findPath (entities : List EntityRow) (edges : List Edge)
    (srcId dstId : String) (maxDepth : Nat) : Except String (List Edge) :=
  if 1 ≤ maxDepth ∧ maxDepth ≤ 10 then
    match findEntityById entities srcId with
    | none => .error ("Source entity " ++ srcId ++ " not found")
    | some _ =>
        match findEntityById entities dstId with
        | none => .error ("Destination entity " ++ dstId ++ " not found")
        | some _ => .ok (bfsLoop edges dstId maxDepth [⟨srcId, []⟩] [srcId])
  else .error "validation: maxDepth out of range"

/-- Extending a walk by one incident table edge. -/
theorem chainB_extend {edges : List Edge} {a m : String} {p : List Edge}
    (hp : chainB edges a m p = true) {e : Edge} (he : e ∈ edges)
    (hadj : e.src = m ∨ e.dst = m) :
    chainB edges a (otherEnd e m) (p ++ [e]) = true := by
  induction p generalizing a with
  | nil =>
      rw [chainB] at hp
      have ha : a = m := by simpa using hp
      subst ha
      rw [List.nil_append, chainB, chainB]
      simp [he, hadj]
  | cons f p ih =>
      rw [chainB] at hp
      simp only [Bool.and_eq_true, Bool.or_eq_true, decide_eq_true_eq] at hp
      obtain ⟨⟨hf, hfa⟩, hrest⟩ := hp
      rw [List.cons_append, chainB]
      simp only [Bool.and_eq_true, Bool.or_eq_true, decide_eq_true_eq]
      exact ⟨⟨hf, hfa⟩, ih hrest⟩

/-- `expand` only grows the visited set. -/
theorem expand_visited_mono (entityId : String) (path : List Edge) :
    ∀ (es : List Edge) (visited : List String) (queue : List QEntry) (x : String),
      x ∈ visited → x ∈ (expand entityId path es visited queue).1 := by
  intro es
  induction es with
  | nil => intro visited queue x hx; exact hx
  | cons e es ih =>
      intro visited queue x hx
      rw [expand]
      by_cases hmem : otherEnd e entityId ∈ visited
      · rw [if_pos hmem]
        exact ih visited queue x hx
      · rw [if_neg hmem]
        exact ih _ _ x (List.mem_cons_of_mem _ hx)

/-- `expand` appends its new entries behind the existing queue; every new
entry extends `path` by one of the scanned edges, reaches a node that was not
yet visited on entry, and that node ends up visited. -/
theorem expand_queue_spec (entityId : String) (path : List Edge) :
    ∀ (es : List Edge) (visited : List String) (queue : List QEntry),
      ∃ newQ, (expand entityId path es visited queue).2 = queue ++ newQ ∧
        ∀ qe ∈ newQ, (∃ e ∈ es, qe.node = otherEnd e entityId ∧
            qe.path = path ++ [e]) ∧
          qe.node ∉ visited ∧
          qe.node ∈ (expand entityId path es visited queue).1 := by
  intro es
  induction es with
  | nil =>
      intro visited queue
      exact ⟨[], by simp [expand], by simp⟩
  | cons e es ih =>
      intro visited queue
      rw [expand]
      by_cases hmem : otherEnd e entityId ∈ visited
      · rw [if_pos hmem]
        obtain ⟨newQ, h1, h2⟩ := ih visited queue
        refine ⟨newQ, h1, ?_⟩
        intro qe hqe
        obtain ⟨⟨f, hf, hqf⟩, hnv, hvis⟩ := h2 qe hqe
        exact ⟨⟨f, List.mem_cons_of_mem e hf, hqf⟩, hnv, hvis⟩
      · rw [if_neg hmem]
        obtain ⟨newQ, h1, h2⟩ := ih (otherEnd e entityId :: visited)
          (queue ++ [⟨otherEnd e entityId, path ++ [e]⟩])
        refine ⟨⟨otherEnd e entityId, path ++ [e]⟩ :: newQ, ?_, ?_⟩
        · rw [h1, List.append_assoc]
          rfl
        · intro qe hqe
          rcases List.mem_cons.mp hqe with hqe | hqe
          · subst hqe
            refine ⟨⟨e, List.mem_cons_self e es, rfl, rfl⟩, hmem, ?_⟩
            exact expand_visited_mono entityId path es _ _ _
              (List.mem_cons_self _ _)
          · obtain ⟨⟨f, hf, hqf⟩, hnv, hvis⟩ := h2 qe hqe
            refine ⟨⟨f, List.mem_cons_of_mem e hf, hqf⟩, ?_, hvis⟩
            intro hcontra
            exact hnv (List.mem_cons_of_mem _ hcontra)

/-- After `expand`, the far endpoint of every scanned edge is visited. -/
theorem expand_covers (entityId : String) (path : List Edge) :
    ∀ (es : List Edge) (visited : List String) (queue : List QEntry),
      ∀ e ∈ es, otherEnd e entityId ∈ (expand entityId path es visited queue).1 := by
  intro es
  induction es with
  | nil => intro visited queue e he; cases he
  | cons f fs ih =>
      intro visited queue e he
      rw [expand]
      by_cases hmem : otherEnd f entityId ∈ visited
      · rw [if_pos hmem]
        rcases List.mem_cons.mp he with h | h
        · subst h
          exact expand_visited_mono entityId path fs _ _ _ hmem
        · exact ih visited queue e h
      · rw [if_neg hmem]
        rcases List.mem_cons.mp he with h | h
        · subst h
          exact expand_visited_mono entityId path fs _ _ _
            (List.mem_cons_self _ _)
        · exact ih _ _ e h

/-- Every node that `expand` newly visits is enqueued with a path one edge
longer than the dequeued one. -/
theorem expand_new_enqueued (entityId : String) (path : List Edge) :
    ∀ (es : List Edge) (visited : List String) (queue : List QEntry)
      (x : String), x ∈ (expand entityId path es visited queue).1 →
      x ∉ visited →
      ∃ qe ∈ (expand entityId path es visited queue).2,
        qe.node = x ∧ qe.path.length = path.length + 1 := by
  intro es
  induction es with
  | nil =>
      intro visited queue x hx hnx
      exact absurd hx hnx
  | cons e es ih =>
      intro visited queue x hx hnx
      rw [expand] at hx ⊢
      by_cases hmem : otherEnd e entityId ∈ visited
      · rw [if_pos hmem] at hx ⊢
        exact ih visited queue x hx hnx
      · rw [if_neg hmem] at hx ⊢
        by_cases hxe : x = otherEnd e entityId
        · subst hxe
          obtain ⟨newQ, h1, _⟩ := expand_queue_spec entityId path es
            (otherEnd e entityId :: visited)
            (queue ++ [⟨otherEnd e entityId, path ++ [e]⟩])
          refine ⟨⟨otherEnd e entityId, path ++ [e]⟩, ?_, rfl, by simp⟩
          rw [h1]
          exact List.mem_append_left _ (List.mem_append_right _
            (List.mem_singleton_self _))
        · exact ih _ _ x hx (by simp [hxe, hnx])

/-- Inductive invariant of `findPath`'s BFS loop.  `d` is a ghost record of
the path length at which each visited node was first enqueued: queue entries
carry valid walks from `srcId` of their recorded length, the queue is
length-sorted with spread at most one, fully processed nodes have all their
neighbours visited one level deeper at most, and a visited `dstId` is still
waiting in the queue (the loop returns on dequeuing it). -/
structure BfsInv (edges : List Edge) (srcId dstId : String) (maxDepth : Nat)
    (queue : List QEntry) (visited : List String) (d : String → Nat) : Prop where
  qchain : ∀ qe ∈ queue, chainB edges srcId qe.node qe.path = true
  qlen : ∀ qe ∈ queue, qe.path.length ≤ maxDepth
  qvis : ∀ qe ∈ queue, qe.node ∈ visited
  qd : ∀ qe ∈ queue, d qe.node = qe.path.length
  qmono : queue.Pairwise (fun a b => a.path.length ≤ b.path.length)
  qspan : ∀ a ∈ queue, ∀ b ∈ queue, a.path.length ≤ b.path.length + 1
  srcVis : srcId ∈ visited
  srcD : d srcId = 0
  procAdj : ∀ v ∈ visited, (∀ qe ∈ queue, ¬ qe.node = v) → d v < maxDepth →
      ∀ e ∈ edges, (e.src = v ∨ e.dst = v) →
        otherEnd e v ∈ visited ∧ d (otherEnd e v) ≤ d v + 1
  procLe : ∀ v ∈ visited, (∀ qe ∈ queue, ¬ qe.node = v) →
      ∀ qe ∈ queue, d v ≤ qe.path.length
  dstQ : dstId ∈ visited → ∃ qe ∈ queue, qe.node = dstId

/-- Pairwise from an unordered bound. -/
theorem pairwise_of_mem {α : Type} {R : α → α → Prop} :
    ∀ (l : List α), (∀ a ∈ l, ∀ b ∈ l, R a b) → l.Pairwise R := by
  intro l
  induction l with
  | nil => intro _; exact List.Pairwise.nil
  | cons x xs ih =>
      intro h
      rw [List.pairwise_cons]
      refine ⟨fun b hb => h x (List.mem_cons_self x xs) b
        (List.mem_cons_of_mem x hb), ?_⟩
      exact ih (fun a ha b hb => h a (List.mem_cons_of_mem x ha) b
        (List.mem_cons_of_mem x hb))

/-- The invariant holds for the initial state
`queue = [{ entityId: src, path: [] }]`, `visited = {src}`. -/
theorem bfsInv_init (edges : List Edge) (srcId dstId : String) (maxDepth : Nat) :
    BfsInv edges srcId dstId maxDepth [⟨srcId, []⟩] [srcId] (fun _ => 0) := by
  refine ⟨?_, ?_, ?_, ?_, ?_, ?_, ?_, rfl, ?_, ?_, ?_⟩
  · intro qe hqe
    simp only [List.mem_singleton] at hqe
    subst hqe
    simp [chainB]
  · intro qe hqe
    simp only [List.mem_singleton] at hqe
    subst hqe
    simp
  · intro qe hqe
    simp only [List.mem_singleton] at hqe
    subst hqe
    exact List.mem_singleton_self _
  · intro qe hqe
    simp only [List.mem_singleton] at hqe
    subst hqe
    rfl
  · exact List.pairwise_singleton _ _
  · intro a ha b hb
    simp only [List.mem_singleton] at ha hb
    subst ha
    subst hb
    simp
  · exact List.mem_singleton_self _
  · intro v hv hproc _ e _ _
    simp only [List.mem_singleton] at hv
    subst hv
    exact absurd rfl (hproc ⟨v, []⟩ (List.mem_singleton_self _))
  · intro v hv hproc qe hqe
    simp only [List.mem_singleton] at hv
    subst hv
    exact absurd rfl (hproc ⟨v, []⟩ (List.mem_singleton_self _))
  · intro hdst
    simp only [List.mem_singleton] at hdst
    exact ⟨⟨srcId, []⟩, List.mem_singleton_self _, hdst.symm⟩

/-- The invariant survives dropping a depth-capped front entry. -/
theorem bfsInv_skip {edges : List Edge} {srcId dstId : String} {maxDepth : Nat}
    {qe : QEntry} {rest : List QEntry} {visited : List String} {d : String → Nat}
    (inv : BfsInv edges srcId dstId maxDepth (qe :: rest) visited d)
    (hne : ¬ qe.node = dstId) (hlen : maxDepth ≤ qe.path.length) :
    BfsInv edges srcId dstId maxDepth rest visited d := by
  have hr : ∀ q ∈ rest, q ∈ qe :: rest := fun q hq => List.mem_cons_of_mem qe hq
  have hfrontD : d qe.node = qe.path.length := inv.qd qe (List.mem_cons_self _ _)
  refine ⟨fun q hq => inv.qchain q (hr q hq), fun q hq => inv.qlen q (hr q hq),
    fun q hq => inv.qvis q (hr q hq), fun q hq => inv.qd q (hr q hq),
    (List.pairwise_cons.mp inv.qmono).2,
    fun a ha b hb => inv.qspan a (hr a ha) b (hr b hb),
    inv.srcVis, inv.srcD, ?_, ?_, ?_⟩
  · intro v hv hproc hdv e he hadj
    by_cases hfv : qe.node = v
    · rw [← hfv, hfrontD] at hdv
      omega
    · exact inv.procAdj v hv
        (fun q hq => by
          rcases List.mem_cons.mp hq with h | h
          · subst h; exact hfv
          · exact hproc q h) hdv e he hadj
  · intro v hv hproc q hq
    by_cases hfv : qe.node = v
    · rw [← hfv, hfrontD]
      exact List.rel_of_pairwise_cons inv.qmono hq
    · exact inv.procLe v hv
        (fun q' hq' => by
          rcases List.mem_cons.mp hq' with h | h
          · subst h; exact hfv
          · exact hproc q' h) q (hr q hq)
  · intro hdst
    obtain ⟨q, hq, hqd⟩ := inv.dstQ hdst
    rcases List.mem_cons.mp hq with h | h
    · subst h
      exact absurd hqd hne
    · exact ⟨q, h, hqd⟩

/-- The invariant survives expanding the front entry along all its incident
edges; the ghost `d` assigns the next level to all newly visited nodes. -/
theorem bfsInv_expand {edges : List Edge} {srcId dstId : String} {maxDepth : Nat}
    {qe : QEntry} {rest : List QEntry} {visited : List String} {d : String → Nat}
    (inv : BfsInv edges srcId dstId maxDepth (qe :: rest) visited d)
    (hne : ¬ qe.node = dstId) (hlen : qe.path.length < maxDepth) :
    BfsInv edges srcId dstId maxDepth
      (expand qe.node qe.path (listEdgesForEntity edges qe.node) visited rest).2
      (expand qe.node qe.path (listEdgesForEntity edges qe.node) visited rest).1
      (fun x =>
        if x ∈ (expand qe.node qe.path (listEdgesForEntity edges qe.node)
              visited rest).1 ∧ x ∉ visited
        then qe.path.length + 1 else d x) := by
  obtain ⟨newQ, hQ, hnew⟩ := expand_queue_spec qe.node qe.path
    (listEdgesForEntity edges qe.node) visited rest
  have hr : ∀ q ∈ rest, q ∈ qe :: rest := fun q hq => List.mem_cons_of_mem qe hq
  have hfrontChain := inv.qchain qe (List.mem_cons_self _ _)
  have hfrontD : d qe.node = qe.path.length := inv.qd qe (List.mem_cons_self _ _)
  have hfrontVis : qe.node ∈ visited := inv.qvis qe (List.mem_cons_self _ _)
  have hmono : ∀ q ∈ rest, qe.path.length ≤ q.path.length :=
    fun q hq => List.rel_of_pairwise_cons inv.qmono hq
  have hadjOf : ∀ e ∈ listEdgesForEntity edges qe.node,
      e ∈ edges ∧ (e.src = qe.node ∨ e.dst = qe.node) := by
    intro e he
    obtain ⟨h1, h2⟩ := List.mem_filter.mp he
    refine ⟨h1, ?_⟩
    simpa using h2
  have hnewLen : ∀ q ∈ newQ, q.path.length = qe.path.length + 1 := by
    intro q hq
    obtain ⟨⟨e, _, _, hpath⟩, _, _⟩ := hnew q hq
    rw [hpath]
    simp
  have hmonoV := expand_visited_mono qe.node qe.path
    (listEdgesForEntity edges qe.node) visited rest
  have hdOld : ∀ x, x ∈ visited →
      (if x ∈ (expand qe.node qe.path (listEdgesForEntity edges qe.node)
            visited rest).1 ∧ x ∉ visited
        then qe.path.length + 1 else d x) = d x := by
    intro x hx
    rw [if_neg]
    intro hcontra
    exact hcontra.2 hx
  rw [hQ]
  refine ⟨?_, ?_, ?_, ?_, ?_, ?_, ?_, ?_, ?_, ?_, ?_⟩
  · intro q hq
    rcases List.mem_append.mp hq with hq | hq
    · exact inv.qchain q (hr q hq)
    · obtain ⟨⟨e, he, hnode, hpath⟩, _, _⟩ := hnew q hq
      obtain ⟨heE, hadj⟩ := hadjOf e he
      have := chainB_extend hfrontChain heE hadj
      rw [← hnode, ← hpath] at this
      exact this
  · intro q hq
    rcases List.mem_append.mp hq with hq | hq
    · exact inv.qlen q (hr q hq)
    · rw [hnewLen q hq]
      omega
  · intro q hq
    rcases List.mem_append.mp hq with hq | hq
    · exact hmonoV _ (inv.qvis q (hr q hq))
    · exact (hnew q hq).2.2
  · intro q hq
    rcases List.mem_append.mp hq with hq | hq
    · rw [hdOld q.node (inv.qvis q (hr q hq))]
      exact inv.qd q (hr q hq)
    · obtain ⟨_, hnv, hvis⟩ := hnew q hq
      rw [if_pos ⟨hvis, hnv⟩]
      exact (hnewLen q hq).symm
  · rw [List.pairwise_append]
    refine ⟨(List.pairwise_cons.mp inv.qmono).2, ?_, ?_⟩
    · exact pairwise_of_mem newQ (fun a ha b hb => by
        rw [hnewLen a ha, hnewLen b hb])
    · intro a ha b hb
      rw [hnewLen b hb]
      exact inv.qspan a (hr a ha) qe (List.mem_cons_self _ _)
  · intro a ha b hb
    rcases List.mem_append.mp ha with ha | ha <;>
      rcases List.mem_append.mp hb with hb | hb
    · exact inv.qspan a (hr a ha) b (hr b hb)
    · rw [hnewLen b hb]
      have := inv.qspan a (hr a ha) qe (List.mem_cons_self _ _)
      omega
    · rw [hnewLen a ha]
      have := hmono b hb
      omega
    · rw [hnewLen a ha, hnewLen b hb]
      omega
  · exact hmonoV _ inv.srcVis
  · rw [hdOld srcId inv.srcVis]
    exact inv.srcD
  · intro v hv hproc hdv e he hadj
    by_cases hvin : v ∈ visited
    · rw [hdOld v hvin] at hdv
      by_cases hfv : qe.node = v
      · subst hfv
        have heF : e ∈ listEdgesForEntity edges qe.node := by
          rw [listEdgesForEntity, List.mem_filter]
          exact ⟨he, by simpa using hadj⟩
        refine ⟨expand_covers qe.node qe.path _ visited rest e heF, ?_⟩
        by_cases huv : otherEnd e qe.node ∈ visited
        · rw [hdOld _ huv, hdOld _ hfrontVis, hfrontD]
          by_cases hq : ∃ q ∈ qe :: rest, q.node = otherEnd e qe.node
          · obtain ⟨q, hq, hqn⟩ := hq
            have := inv.qd q hq
            rw [hqn] at this
            rw [this]
            exact inv.qspan q hq qe (List.mem_cons_self _ _)
          · push_neg at hq
            have := inv.procLe (otherEnd e qe.node) huv
              (fun q hqm => hq q hqm) qe (List.mem_cons_self _ _)
            omega
        · rw [if_pos ⟨expand_covers qe.node qe.path _ visited rest e heF, huv⟩,
            hdOld _ hfrontVis, hfrontD]
      · have hprocOld : ∀ q ∈ qe :: rest, ¬ q.node = v := by
          intro q hq
          rcases List.mem_cons.mp hq with h | h
          · subst h; exact hfv
          · exact hproc q (List.mem_append_left newQ h)
        obtain ⟨hu1, hu2⟩ := inv.procAdj v hvin hprocOld hdv e he hadj
        refine ⟨hmonoV _ hu1, ?_⟩
        rw [hdOld _ hu1, hdOld v hvin]
        exact hu2
    · obtain ⟨q, hq, hqn, _⟩ := expand_new_enqueued qe.node qe.path
        (listEdgesForEntity edges qe.node) visited rest v hv hvin
      rw [hQ] at hq
      exact absurd hqn (hproc q hq)
  · intro v hv hproc q hq
    by_cases hvin : v ∈ visited
    · rw [hdOld v hvin]
      by_cases hfv : qe.node = v
      · subst hfv
        rcases List.mem_append.mp hq with hq | hq
        · rw [hfrontD]
          exact hmono q hq
        · rw [hfrontD, hnewLen q hq]
          omega
      · have hprocOld : ∀ q' ∈ qe :: rest, ¬ q'.node = v := by
          intro q' hq'
          rcases List.mem_cons.mp hq' with h | h
          · subst h; exact hfv
          · exact hproc q' (List.mem_append_left newQ h)
        have hle := inv.procLe v hvin hprocOld qe (List.mem_cons_self _ _)
        rcases List.mem_append.mp hq with hq | hq
        · exact inv.procLe v hvin hprocOld q (hr q hq)
        · rw [hnewLen q hq]
          omega
    · obtain ⟨q', hq', hqn, _⟩ := expand_new_enqueued qe.node qe.path
        (listEdgesForEntity edges qe.node) visited rest v hv hvin
      rw [hQ] at hq'
      exact absurd hqn (hproc q' hq')
  · intro hdst
    by_cases hdin : dstId ∈ visited
    · obtain ⟨q, hq, hqd⟩ := inv.dstQ hdin
      rcases List.mem_cons.mp hq with h | h
      · subst h
        exact absurd hqd hne
      · exact ⟨q, List.mem_append_left newQ h, hqd⟩
    · obtain ⟨q, hq, hqn, _⟩ := expand_new_enqueued qe.node qe.path
        (listEdgesForEntity edges qe.node) visited rest dstId hdst hdin
      rw [hQ] at hq
      exact ⟨q, hq, hqn⟩

/-- Queue domination: a walk within the depth bound starting at a visited
node either meets the queue within its length budget or ends at a visited
node of no greater recorded level. -/
theorem bfs_walk {edges : List Edge} {srcId dstId : String} {maxDepth : Nat}
    {queue : List QEntry} {visited : List String} {d : String → Nat}
    (inv : BfsInv edges srcId dstId maxDepth queue visited d) :
    ∀ (p : List Edge) (u : String) (k : Nat) (w : String),
      u ∈ visited → d u ≤ k → chainB edges u w p = true →
      k + p.length ≤ maxDepth →
      (∃ qe ∈ queue, qe.path.length ≤ k + p.length) ∨
      (w ∈ visited ∧ d w ≤ k + p.length) := by
  intro p
  induction p with
  | nil =>
      intro u k w hu hdu hchain hbound
      rw [chainB] at hchain
      have huw : u = w := by simpa using hchain
      subst huw
      exact Or.inr ⟨hu, by simpa using hdu⟩
  | cons e p ih =>
      intro u k w hu hdu hchain hbound
      rw [chainB] at hchain
      simp only [Bool.and_eq_true, Bool.or_eq_true, decide_eq_true_eq] at hchain
      obtain ⟨⟨heE, hadj⟩, hrest⟩ := hchain
      by_cases hq : ∃ qe ∈ queue, qe.node = u
      · obtain ⟨qe, hqe, hqn⟩ := hq
        refine Or.inl ⟨qe, hqe, ?_⟩
        have hqd := inv.qd qe hqe
        rw [hqn] at hqd
        simp only [List.length_cons]
        omega
      · push_neg at hq
        have hdu_lt : d u < maxDepth := by
          simp only [List.length_cons] at hbound
          omega
        obtain ⟨hv, hd⟩ := inv.procAdj u hu hq hdu_lt e heE hadj
        have hres := ih (otherEnd e u) (k + 1) w hv (by omega) hrest
          (by simp only [List.length_cons] at hbound ⊢; omega)
        simp only [List.length_cons]
        rcases hres with ⟨qe, hqe, hlen⟩ | ⟨hw, hdw⟩
        · exact Or.inl ⟨qe, hqe, by omega⟩
        · exact Or.inr ⟨hw, by omega⟩

/-- Soundness of the BFS loop: any returned path is a valid walk from `src`
to `dst` of at most `maxDepth` edges, unless the loop exhausted its queue and
returned `[]`. -/
theorem bfsLoop_sound (edges : List Edge) (srcId dstId : String) (maxDepth : Nat) :
    ∀ (n : Nat) (queue : List QEntry) (visited : List String) (d : String → Nat),
      bfsMeasure edges visited queue ≤ n →
      BfsInv edges srcId dstId maxDepth queue visited d →
      (chainB edges srcId dstId (bfsLoop edges dstId maxDepth queue visited) = true ∧
        (bfsLoop edges dstId maxDepth queue visited).length ≤ maxDepth) ∨
      bfsLoop edges dstId maxDepth queue visited = [] := by
  intro n
  induction n with
  | zero =>
      intro queue visited d hm inv
      cases queue with
      | nil => exact Or.inr (by rw [bfsLoop])
      | cons qe rest =>
          exfalso
          rw [bfsMeasure] at hm
          simp only [List.length_cons] at hm
          omega
  | succ n ih =>
      intro queue visited d hm inv
      cases queue with
      | nil => exact Or.inr (by rw [bfsLoop])
      | cons qe rest =>
          rw [bfsLoop]
          by_cases hdst : qe.node = dstId
          · rw [if_pos hdst]
            refine Or.inl ⟨?_, inv.qlen qe (List.mem_cons_self _ _)⟩
            have hch := inv.qchain qe (List.mem_cons_self _ _)
            rw [hdst] at hch
            exact hch
          · rw [if_neg hdst]
            by_cases hcap : maxDepth ≤ qe.path.length
            · rw [if_pos hcap]
              refine ih rest visited d ?_ (bfsInv_skip inv hdst hcap)
              rw [bfsMeasure] at hm ⊢
              simp only [List.length_cons] at hm
              omega
            · rw [if_neg hcap]
              have hexp := expand_measure edges qe.node qe.path
                (listEdgesForEntity edges qe.node)
                (fun e he => List.mem_of_mem_filter he) visited rest
              refine ih _ _ _ ?_ (bfsInv_expand inv hdst (by omega))
              simp only [bfsMeasure] at hm hexp ⊢
              simp only [List.length_cons] at hm
              omega

/-- Completeness and minimality of the BFS loop: whenever some walk from
`src` to `dst` fits the depth bound, the loop returns a valid walk no longer
than it. -/
theorem bfsLoop_min (edges : List Edge) (srcId dstId : String) (maxDepth : Nat) :
    ∀ (n : Nat) (queue : List QEntry) (visited : List String) (d : String → Nat),
      bfsMeasure edges visited queue ≤ n →
      BfsInv edges srcId dstId maxDepth queue visited d →
      ∀ q : List Edge, chainB edges srcId dstId q = true → q.length ≤ maxDepth →
        chainB edges srcId dstId (bfsLoop edges dstId maxDepth queue visited) = true ∧
        (bfsLoop edges dstId maxDepth queue visited).length ≤ q.length := by
  intro n
  induction n with
  | zero =>
      intro queue visited d hm inv q hq hqlen
      cases queue with
      | nil =>
          exfalso
          rcases bfs_walk inv q srcId 0 dstId inv.srcVis (by rw [inv.srcD]) hq
            (by omega) with ⟨qe, hqe, _⟩ | ⟨hw, _⟩
          · cases hqe
          · obtain ⟨qe, hqe, _⟩ := inv.dstQ hw
            cases hqe
      | cons qe rest =>
          exfalso
          rw [bfsMeasure] at hm
          simp only [List.length_cons] at hm
          omega
  | succ n ih =>
      intro queue visited d hm inv q hq hqlen
      cases queue with
      | nil =>
          exfalso
          rcases bfs_walk inv q srcId 0 dstId inv.srcVis (by rw [inv.srcD]) hq
            (by omega) with ⟨qe, hqe, _⟩ | ⟨hw, _⟩
          · cases hqe
          · obtain ⟨qe, hqe, _⟩ := inv.dstQ hw
            cases hqe
      | cons qe rest =>
          rw [bfsLoop]
          by_cases hdst : qe.node = dstId
          · rw [if_pos hdst]
            constructor
            · have hch := inv.qchain qe (List.mem_cons_self _ _)
              rw [hdst] at hch
              exact hch
            · rcases bfs_walk inv q srcId 0 dstId inv.srcVis (by rw [inv.srcD])
                hq (by omega) with ⟨en, hen, hlen⟩ | ⟨hw, hdw⟩
              · have : qe.path.length ≤ en.path.length := by
                  rcases List.mem_cons.mp hen with h | h
                  · subst h; exact le_refl _
                  · exact List.rel_of_pairwise_cons inv.qmono h
                omega
              · obtain ⟨en, hen, hend⟩ := inv.dstQ hw
                have hqd := inv.qd en hen
                rw [hend] at hqd
                have hfr : qe.path.length ≤ en.path.length := by
                  rcases List.mem_cons.mp hen with h | h
                  · subst h; exact le_refl _
                  · exact List.rel_of_pairwise_cons inv.qmono h
                omega
          · rw [if_neg hdst]
            by_cases hcap : maxDepth ≤ qe.path.length
            · rw [if_pos hcap]
              refine ih rest visited d ?_ (bfsInv_skip inv hdst hcap) q hq hqlen
              rw [bfsMeasure] at hm ⊢
              simp only [List.length_cons] at hm
              omega
            · rw [if_neg hcap]
              have hexp := expand_measure edges qe.node qe.path
                (listEdgesForEntity edges qe.node)
                (fun e he => List.mem_of_mem_filter he) visited rest
              refine ih _ _ _ ?_ (bfsInv_expand inv hdst (by omega)) q hq hqlen
              simp only [bfsMeasure] at hm hexp ⊢
              simp only [List.length_cons] at hm
              omega

/-- Claim C8 (amended): for existing endpoints and a schema-valid `maxDepth`
(an integer in `[1, 10]`), `findPath` performs a breadth-first search that
traverses each edge in either direction regardless of its stored `src`/`dst`
polarity (the walk predicate `chainB` is direction-agnostic) and returns a
minimum-hop path of at most `maxDepth` edges whenever such a path exists;
when no path of length ≤ `maxDepth` exists it returns the empty list, not an
error.  `maxDepth = 0`, however, is rejected by request validation with an
error (see the counterexample). -/
theorem findPath_bfs_correct (entities : List EntityRow) (edges : List Edge)
    (srcId dstId : String) (maxDepth : Nat)
    (hs : ∃ ent, findEntityById entities srcId = some ent)
    (hd : ∃ ent, findEntityById entities dstId = some ent)
    (hrange : 1 ≤ maxDepth ∧ maxDepth ≤ 10) :
    (∀ q, chainB edges srcId dstId q = true → q.length ≤ maxDepth →
      ∃ p, findPath entities edges srcId dstId maxDepth = .ok p ∧
        chainB edges srcId dstId p = true ∧ p.length ≤ maxDepth ∧
        ∀ q', chainB edges srcId dstId q' = true → p.length ≤ q'.length) ∧
    ((∀ q, chainB edges srcId dstId q = true → maxDepth < q.length) →
      findPath entities edges srcId dstId maxDepth = .ok []) := by
  obtain ⟨sEnt, hsE⟩ := hs
  obtain ⟨dEnt, hdE⟩ := hd
  have hrun : findPath entities edges srcId dstId maxDepth
      = .ok (bfsLoop edges dstId maxDepth [⟨srcId, []⟩] [srcId]) := by
    rw [findPath, if_pos hrange, hsE, hdE]
  have hsound := bfsLoop_sound edges srcId dstId maxDepth
    (bfsMeasure edges [srcId] [⟨srcId, []⟩]) [⟨srcId, []⟩] [srcId]
    (fun _ => 0) (le_refl _) (bfsInv_init edges srcId dstId maxDepth)
  constructor
  · intro q hq hqlen
    have hmin := bfsLoop_min edges srcId dstId maxDepth
      (bfsMeasure edges [srcId] [⟨srcId, []⟩]) [⟨srcId, []⟩] [srcId]
      (fun _ => 0) (le_refl _) (bfsInv_init edges srcId dstId maxDepth)
    refine ⟨_, hrun, (hmin q hq hqlen).1, ?_, ?_⟩
    · rcases hsound with ⟨_, hle⟩ | hnil
      · exact hle
      · rw [hnil]
        simp
    · intro q' hq'
      by_cases hq'len : q'.length ≤ maxDepth
      · exact (hmin q' hq' hq'len).2
      · have hle : (bfsLoop edges dstId maxDepth [⟨srcId, []⟩] [srcId]).length
            ≤ maxDepth := by
          rcases hsound with ⟨_, hle⟩ | hnil
          · exact hle
          · rw [hnil]; simp
        omega
  · intro hno
    rw [hrun]
    rcases hsound with ⟨hch, hle⟩ | hnil
    · have := hno _ hch
      omega
    · rw [hnil]

/-- Claim C8 counterexample: zod validates `maxDepth` with `min(1)`, so
`findPath(A, C, maxDepth = 0)` raises a validation error rather than
returning the empty list, even when both entities exist and differ. -/
theorem findPath_maxDepth_zero_cex :
    findPath [⟨"A", "A", "t", 0, 0, 0, []⟩, ⟨"C", "C", "t", 0, 0, 0, []⟩] []
        "A" "C" 0
      = .error "validation: maxDepth out of range" ∧
    ∀ p, ¬ findPath [⟨"A", "A", "t", 0, 0, 0, []⟩, ⟨"C", "C", "t", 0, 0, 0, []⟩]
        [] "A" "C" 0 = .ok p := by
  constructor
  · rfl
  · intro p h
    rw [findPath, if_neg (by omega)] at h
    cases h

/-- Witness for C8 at the spec's example: entities `A`, `B`, `C` with edges
`A–B` and `B–C`; `findPath(A, C, maxDepth = 5)` returns the 2-edge path via
`B`, which is minimal among all walks. -/
theorem findPath_bfs_correct_witness :
    (∃ p, findPath
        [⟨"A", "A", "t", 0, 0, 0, []⟩, ⟨"B", "B", "t", 0, 0, 0, []⟩,
         ⟨"C", "C", "t", 0, 0, 0, []⟩]
        [⟨"e1", "A", "B", "r", 0⟩, ⟨"e2", "B", "C", "r", 0⟩]
        "A" "C" 5 = .ok p ∧
      chainB [⟨"e1", "A", "B", "r", 0⟩, ⟨"e2", "B", "C", "r", 0⟩] "A" "C" p = true ∧
      p.length ≤ 5 ∧
      ∀ q', chainB [⟨"e1", "A", "B", "r", 0⟩, ⟨"e2", "B", "C", "r", 0⟩]
          "A" "C" q' = true → p.length ≤ q'.length) ∧
    findPath
        [⟨"A", "A", "t", 0, 0, 0, []⟩, ⟨"B", "B", "t", 0, 0, 0, []⟩,
         ⟨"C", "C", "t", 0, 0, 0, []⟩]
        [⟨"e1", "A", "B", "r", 0⟩, ⟨"e2", "B", "C", "r", 0⟩]
        "A" "C" 5
      = .ok [⟨"e1", "A", "B", "r", 0⟩, ⟨"e2", "B", "C", "r", 0⟩] := by
  constructor
  · exact (findPath_bfs_correct
      [⟨"A", "A", "t", 0, 0, 0, []⟩, ⟨"B", "B", "t", 0, 0, 0, []⟩,
       ⟨"C", "C", "t", 0, 0, 0, []⟩]
      [⟨"e1", "A", "B", "r", 0⟩, ⟨"e2", "B", "C", "r", 0⟩] "A" "C" 5
      ⟨⟨"A", "A", "t", 0, 0, 0, []⟩, rfl⟩
      ⟨⟨"C", "C", "t", 0, 0, 0, []⟩, rfl⟩ (by omega)).1
      [⟨"e1", "A", "B", "r", 0⟩, ⟨"e2", "B", "C", "r", 0⟩] (by decide) (by decide)
  · simp [findPath, bfsLoop, expand, listEdgesForEntity, otherEnd,
      findEntityById, List.find?, List.filter]

/-! ## Document ingestion and deletion (document-service.ts)

The row models keep the columns the claims touch; the free-form JSON
`metadata` columns are omitted.  The vector store (`vectra` `LocalIndex`) is
an external dependency of the repository; its operations are modelled from
the spec's §4.2 contract where marked. -/

structure DocRow where
  id : String
  hash : String
  sourcePath : Option String
  mime : Option String
  title : Option String
  ingestedAt : Nat
  sizeBytes : Nat
deriving DecidableEq, Repr

structure ChunkRow where
  id : String
  docId : String
  positionStart : Nat
  positionEnd : Nat
  page : Option Nat
  content : List Char
  summary : Option (List Char)
  embeddingId : Option String
deriving DecidableEq, Repr

/-- One item of the vectra `doc_chunks` collection (item id = `chunkId`, with
the metadata written by `upsertDocumentVector`). -/
structure VecEntry where
  chunkId : String
  docId : String
  positionStart : Nat
  positionEnd : Nat
  vector : List ℚ
deriving DecidableEq, Repr

/-- The persistent state the ingestion claims range over: the `documents`,
`doc_chunks` and `entities` tables plus the vectra chunk collection. -/
structure Store where
  documents : List DocRow
  chunks : List ChunkRow
  entities : List EntityRow
  docVectors : List VecEntry
deriving DecidableEq, Repr

/-- `DocumentRepository.findByHash`:
`SELECT * FROM documents WHERE hash = ? LIMIT 1`. -/
def findByHash (documents : List DocRow) (hash : String) : Option DocRow :=
  documents.find? (fun doc => doc.hash = hash)

/-- Stable insertion by ascending `position_start` (the `ORDER BY` of
`listByDocument`). -/
def insertChunkAsc (c : ChunkRow) : List ChunkRow → List ChunkRow
  | [] => [c]
  | d :: ds =>
      if d.positionStart ≤ c.positionStart then d :: insertChunkAsc c ds
      else c :: d :: ds

def sortChunksAsc : List ChunkRow → List ChunkRow
  | [] => []
  | c :: cs => insertChunkAsc c (sortChunksAsc cs)

/-- `DocumentChunkRepository.listByDocument`:
`WHERE doc_id = ? ORDER BY position_start ASC`. -/
def listByDocument (chunks : List ChunkRow) (docId : String) : List ChunkRow :=
  sortChunksAsc (chunks.filter (fun c => c.docId = docId))

theorem length_insertChunkAsc (c : ChunkRow) (l : List ChunkRow) :
    (insertChunkAsc c l).length = l.length + 1 := by
  induction l with
  | nil => rfl
  | cons d ds ih =>
      rw [insertChunkAsc]
      by_cases h : d.positionStart ≤ c.positionStart
      · rw [if_pos h]
        simp [ih]
      · rw [if_neg h]
        simp

theorem length_sortChunksAsc (l : List ChunkRow) :
    (sortChunksAsc l).length = l.length := by
  induction l with
  | nil => rfl
  | cons c cs ih =>
      rw [sortChunksAsc, length_insertChunkAsc, ih]
      rfl

/-- Modelled from the spec: `vectra`'s `upsertItem` is external to the
repository; §4.2 specifies `upsert(id, vector, metadata)` replaces any
existing vector under the id (idempotent). -/
def upsertDocVector (vectors : List VecEntry) (v : VecEntry) : List VecEntry :=
  if vectors.any (fun w => w.chunkId = v.chunkId) then
    vectors.map (fun w => if w.chunkId = v.chunkId then v else w)
  else vectors ++ [v]

/-- Modelled from the spec: `vectra`'s `queryItems` is external to the
repository; §4.2 specifies `query(vector, top_k, filter?)` returns at most
`top_k` entries restricted to those whose metadata satisfies the filter
(here the `docId` equality filter built by `queryDocumentChunks`).  Ranking
weights are irrelevant to the claims; matches keep collection order. -/
def queryDocumentChunks (vectors : List VecEntry) (docId : Option String)
    (topK : Nat) : List VecEntry :=
  (vectors.filter (fun v =>
    match docId with
    | some d => decide (v.docId = d)
    | none => true)).take topK

/-- The pluggable collaborators consumed by ingestion (spec §6): hashing is
`createHash("sha256")` (a pure digest, abstracted as a function of the
text), embedding is a fallible batched call, summarization an optional
fallible call, entity extraction an optional fallible call returning
`(name, type)` pairs. -/
structure Collaborators where
  hashFn : List Char → String
  embed : List (List Char) → Except String (List (List ℚ))
  summarize : Option (List Char → Except String (List Char))
  extract : Option (List Char → Except String (List (String × String)))

/-- JS `text.replace(/\s+/g, " ")`: collapse every whitespace run to one
space. -/
def collapseWs : List Char → List Char
  | [] => []
  | c :: cs =>
      if c.isWhitespace then ' ' :: collapseWs (cs.dropWhile Char.isWhitespace)
      else c :: collapseWs cs
termination_by l => l.length
decreasing_by
  · have := List.Sublist.length_le
      (List.dropWhile_sublist (l := cs) Char.isWhitespace)
    simp only [List.length_cons]
    omega
  · simp only [List.length_cons]
    omega

/-- JS `text.trim()`. -/
def trimChars (l : List Char) : List Char :=
  ((l.dropWhile Char.isWhitespace).reverse.dropWhile Char.isWhitespace).reverse

/-- `#fallbackSummary`: trim, collapse whitespace, slice to 240 units. -/
def fallbackSummary (text : List Char) : List Char :=
  (collapseWs (trimChars text)).take 240

/-- Sequential summarizer calls (the `for (const chunk of chunks)` loop of
`#generateSummaries`); the first failure aborts. -/
def summarizeAll (f : List Char → Except String (List Char)) :
    List TextChunk → Except String (List (Option (List Char)))
  | [] => .ok []
  | c :: cs =>
      match f c.text with
      | .error e => .error e
      | .ok s =>
          match summarizeAll f cs with
          | .error e => .error e
          | .ok rest => .ok (some s :: rest)

/-- `#generateSummaries`: disabled → no summaries; no summarizer configured →
the deterministic truncation fallback; otherwise one collaborator call per
chunk. -/
def generateSummaries (col : Collaborators) (chunks : List TextChunk)
    (enabled : Bool) : Except String (List (Option (List Char))) :=
  if enabled then
    match col.summarize with
    | none => .ok (chunks.map (fun c => some (fallbackSummary c.text)))
    | some f => summarizeAll f chunks
  else .ok (chunks.map (fun _ => none))

/-- An ingestion request after transport decoding.  The `path` variant of
`#loadContent` reads the filesystem and is outside this embedding: the
claims quantify over inline-content requests, and `content = none` models
the schema refinement failure `Provide either path or content`. -/
structure IngestRequest where
  content : Option (List Char)
  hashOverride : Option String
  mime : Option String
  title : Option String
  chunkSize : Nat
  chunkOverlap : Nat
  generateSummary : Bool
  detectEntities : Bool

/-- The zod bounds of `DocumentIngestionOptionsSchema`:
`chunkSize: int [100, 4000]`, `chunkOverlap: int [0, 400]`. -/
def validOptions (req : IngestRequest) : Prop :=
  100 ≤ req.chunkSize ∧ req.chunkSize ≤ 4000 ∧ req.chunkOverlap ≤ 400

instance (req : IngestRequest) : Decidable (validOptions req) := by
  unfold validOptions
  infer_instance

/-- The fields of `DocumentIngestionResult` the claims are about. -/
structure IngestResult where
  docId : String
  chunkCount : Nat
  entities : Option (List String)
deriving DecidableEq, Repr

/-- The per-chunk loop of `ingest`: insert the chunk row, THEN upsert its
vector, consuming `embeddings[index]` / `summaries[index]` positionally. -/
def insertChunks (freshChunkIds : Nat → String) (docId : String) :
    Nat → List TextChunk → List (List ℚ) → List (Option (List Char)) →
    Store → Store
  | _, [], _, _, st => st
  | index, c :: cs, embs, sums, st =>
      insertChunks freshChunkIds docId (index + 1) cs embs.tail sums.tail
        { st with
          chunks := st.chunks ++ [⟨freshChunkIds index, docId, c.start, c.stop,
            none, c.text, sums.head?.getD none, some (freshChunkIds index)⟩],
          docVectors := upsertDocVector st.docVectors
            ⟨freshChunkIds index, docId, c.start, c.stop, embs.head?.getD []⟩ }

/-- The entity loop of `ingest`: each extracted entity is upserted with
`tags: []`. -/
def registerEntities (freshEntityIds : Nat → String) (now : Nat) :
    Nat → List (String × String) → List EntityRow → List EntityRow
  | _, [], db => db
  | index, (name, ty) :: rest, db =>
      registerEntities freshEntityIds now (index + 1) rest
        (registerEntityIngest db name ty (freshEntityIds index) now)

/-- `DefaultDocumentService.ingest` over the store model, mirroring the
source step for step: schema parse (zod bounds and the content/path
refinement, before any store access); hash = `hashOverride ?? sha256(text)`;
dedup lookup by hash with early return; **document row creation**; split;
batch embed; summaries; per-chunk row insert + vector upsert; optional
entity extraction and registration.  There is no enclosing transaction —
each repository call commits as it runs — so the state returned alongside an
error is whatever had been written up to the failure. -/
def ingest (col : Collaborators) (freshDocId : String)
    (freshChunkIds : Nat → String) (freshEntityIds : Nat → String) (now : Nat)
    (req : IngestRequest) (st : Store) : Except String IngestResult × Store :=
  if validOptions req then
    match req.content with
    | none => (.error "Either content or path must be provided", st)
    | some text =>
      match findByHash st.documents (req.hashOverride.getD (col.hashFn text)) with
      | some existing =>
          (.ok ⟨existing.id, (listByDocument st.chunks existing.id).length, none⟩,
           st)
      | none =>
          let doc : DocRow := ⟨freshDocId,
            req.hashOverride.getD (col.hashFn text), none, req.mime, req.title,
            now, text.length⟩
          let st₁ : Store := { st with documents := st.documents ++ [doc] }
          match split text req.chunkSize req.chunkOverlap with
          | .error e => (.error e, st₁)
          | .ok chunks =>
            match col.embed (chunks.map (fun c => c.text)) with
            | .error e => (.error e, st₁)
            | .ok embeddings =>
              match generateSummaries col chunks req.generateSummary with
              | .error e => (.error e, st₁)
              | .ok summaries =>
                let st₂ := insertChunks freshChunkIds freshDocId 0 chunks
                  embeddings summaries st₁
                if req.detectEntities then
                  match col.extract with
                  | none => (.ok ⟨freshDocId, chunks.length, none⟩, st₂)
                  | some ex =>
                    match ex text with
                    | .error e => (.error e, st₂)
                    | .ok ents =>
                        (.ok ⟨freshDocId, chunks.length,
                            some (ents.map (fun p => p.1))⟩,
                         { st₂ with
                           entities := registerEntities freshEntityIds now 0
                             ents st₂.entities })
                else (.ok ⟨freshDocId, chunks.length, none⟩, st₂)
  else (.error "validation: chunk options out of range", st)

/-- `DefaultDocumentService.deleteDocument`: `NotFound` check, explicit
`deleteByDocument` of the chunk rows, then the document row.  The code does
not touch the vectra collection ("Vectra vectors are cleaned up separately
if needed"), so `docVectors` is unchanged. -/
def deleteDocument (st : Store) (id : String) : Except String Unit × Store :=
  match st.documents.find? (fun doc => doc.id = id) with
  | none => (.error ("Document " ++ id ++ " not found"), st)
  | some _ =>
      (.ok (),
       { st with chunks := st.chunks.filter (fun c => ¬ c.docId = id),
                 documents := st.documents.filter (fun doc => ¬ doc.id = id) })

/-- Claim C3 (amended): deleting an existing document removes every chunk
row owned by it and the document row itself, but the chunk vectors are NOT
deleted — the code defers vector cleanup — so a subsequent vector query over
the chunk collection filtered on that docId returns exactly what it returned
before the deletion. -/
theorem deleteDocument_cascades_rows_not_vectors (st : Store) (id : String)
    (doc : DocRow)
    (hfind : st.documents.find? (fun d => d.id = id) = some doc) :
    (deleteDocument st id).1 = .ok () ∧
    (deleteDocument st id).2.chunks.filter (fun c => c.docId = id) = [] ∧
    (∀ d ∈ (deleteDocument st id).2.documents, ¬ d.id = id) ∧
    (deleteDocument st id).2.docVectors = st.docVectors ∧
    queryDocumentChunks (deleteDocument st id).2.docVectors (some id) 20
      = queryDocumentChunks st.docVectors (some id) 20 := by
  rw [deleteDocument, hfind]
  refine ⟨rfl, ?_, ?_, rfl, rfl⟩
  · apply List.eq_nil_iff_forall_not_mem.mpr
    intro c hc
    have h2 := List.of_mem_filter hc
    have h1 := List.of_mem_filter (List.mem_of_mem_filter hc)
    simp at h1 h2
    exact h1 h2
  · intro d hd
    have := List.of_mem_filter hd
    simpa using this

/-- Witness for C3's amended statement at a one-document store. -/
theorem deleteDocument_cascades_rows_not_vectors_witness :
    (deleteDocument ⟨[⟨"d1", "h", none, none, none, 0, 3⟩],
        [⟨"c1", "d1", 0, 3, none, ['a', 'b', 'c'], none, some "c1"⟩], [],
        [⟨"c1", "d1", 0, 3, []⟩]⟩ "d1").1 = .ok () ∧
    (deleteDocument ⟨[⟨"d1", "h", none, none, none, 0, 3⟩],
        [⟨"c1", "d1", 0, 3, none, ['a', 'b', 'c'], none, some "c1"⟩], [],
        [⟨"c1", "d1", 0, 3, []⟩]⟩ "d1").2.chunks.filter
        (fun c => c.docId = "d1") = [] ∧
    (∀ d ∈ (deleteDocument ⟨[⟨"d1", "h", none, none, none, 0, 3⟩],
        [⟨"c1", "d1", 0, 3, none, ['a', 'b', 'c'], none, some "c1"⟩], [],
        [⟨"c1", "d1", 0, 3, []⟩]⟩ "d1").2.documents, ¬ d.id = "d1") ∧
    (deleteDocument ⟨[⟨"d1", "h", none, none, none, 0, 3⟩],
        [⟨"c1", "d1", 0, 3, none, ['a', 'b', 'c'], none, some "c1"⟩], [],
        [⟨"c1", "d1", 0, 3, []⟩]⟩ "d1").2.docVectors = [⟨"c1", "d1", 0, 3, []⟩] ∧
    queryDocumentChunks [⟨"c1", "d1", 0, 3, []⟩] (some "d1") 20
      = [⟨"c1", "d1", 0, 3, []⟩] := by
  have h := deleteDocument_cascades_rows_not_vectors
    ⟨[⟨"d1", "h", none, none, none, 0, 3⟩],
     [⟨"c1", "d1", 0, 3, none, ['a', 'b', 'c'], none, some "c1"⟩], [],
     [⟨"c1", "d1", 0, 3, []⟩]⟩ "d1" ⟨"d1", "h", none, none, none, 0, 3⟩ rfl
  exact ⟨h.1, h.2.1, h.2.2.1, h.2.2.2.1, rfl⟩

/-- Claim C3 counterexample: after `deleteDocument("d1")` the chunk row is
gone, yet the docId-filtered vector query still returns the deleted chunk's
vector entry — the entry is not unresolvable. -/
theorem deleteDocument_vector_still_resolvable_cex :
    (deleteDocument ⟨[⟨"d1", "h", none, none, none, 0, 3⟩],
        [⟨"c1", "d1", 0, 3, none, ['a', 'b', 'c'], none, some "c1"⟩], [],
        [⟨"c1", "d1", 0, 3, []⟩]⟩ "d1").2.chunks = [] ∧
    queryDocumentChunks
        ((deleteDocument ⟨[⟨"d1", "h", none, none, none, 0, 3⟩],
          [⟨"c1", "d1", 0, 3, none, ['a', 'b', 'c'], none, some "c1"⟩], [],
          [⟨"c1", "d1", 0, 3, []⟩]⟩ "d1").2.docVectors) (some "d1") 20
      = [⟨"c1", "d1", 0, 3, []⟩] ∧
    ¬ ([⟨"c1", "d1", 0, 3, []⟩] : List VecEntry) = [] := by
  refine ⟨rfl, rfl, by simp⟩

/-- Claim C1 (amended): zod schema failures (chunk options out of range,
neither content nor path) are raised before any mutation and leave the store
untouched; but `chunkOverlap ≥ chunkSize` is only detected inside the
splitter, which runs after the document row has been created, and an
embedding-collaborator failure likewise strikes after creation — in both
cases the failed ingest leaves the new document row committed (with no new
chunk rows or vectors). -/
theorem ingest_failure_states (col : Collaborators) (freshDocId : String)
    (freshChunkIds freshEntityIds : Nat → String) (now : Nat)
    (req : IngestRequest) (st : Store) :
    ((¬ validOptions req ∨ req.content = none) →
      (ingest col freshDocId freshChunkIds freshEntityIds now req st).2 = st ∧
      ∃ e, (ingest col freshDocId freshChunkIds freshEntityIds now req st).1
        = .error e) ∧
    (∀ text, validOptions req → req.content = some text →
      findByHash st.documents (req.hashOverride.getD (col.hashFn text)) = none →
      req.chunkSize ≤ req.chunkOverlap →
      ingest col freshDocId freshChunkIds freshEntityIds now req st
        = (.error "chunkOverlap must be smaller than chunkSize",
           { st with documents := st.documents ++
              [⟨freshDocId, req.hashOverride.getD (col.hashFn text), none,
                req.mime, req.title, now, text.length⟩] })) ∧
    (∀ text chunks e, validOptions req → req.content = some text →
      findByHash st.documents (req.hashOverride.getD (col.hashFn text)) = none →
      split text req.chunkSize req.chunkOverlap = .ok chunks →
      col.embed (chunks.map (fun c => c.text)) = .error e →
      ingest col freshDocId freshChunkIds freshEntityIds now req st
        = (.error e,
           { st with documents := st.documents ++
              [⟨freshDocId, req.hashOverride.getD (col.hashFn text), none,
                req.mime, req.title, now, text.length⟩] })) := by
  refine ⟨?_, ?_, ?_⟩
  · intro h
    rcases h with h | h
    · rw [ingest, if_neg h]
      exact ⟨rfl, _, rfl⟩
    · by_cases hv : validOptions req
      · rw [ingest, if_pos hv]
        rw [h]
        exact ⟨rfl, _, rfl⟩
      · rw [ingest, if_neg hv]
        exact ⟨rfl, _, rfl⟩
  · intro text hv hc hfind hbad
    have hsplit : split text req.chunkSize req.chunkOverlap
        = .error "chunkOverlap must be smaller than chunkSize" := by
      rw [split, dif_neg (by omega)]
    rw [ingest, if_pos hv]
    simp only [hc]
    rw [hfind]
    simp only [hsplit]
  · intro text chunks e hv hc hfind hsplit hembed
    rw [ingest, if_pos hv]
    simp only [hc]
    rw [hfind]
    simp only [hsplit, hembed]

/-- Witness for C1's amended statement: a schema-valid request
(`chunkSize = 100`, `chunkOverlap = 100` — both within bounds) whose split
fails after the document row was created. -/
theorem ingest_failure_states_witness :
    ingest ⟨fun t => String.mk t, fun ts => .ok (ts.map (fun _ => [])),
        none, none⟩
      "d1" (fun _ => "c") (fun _ => "e") 5
      ⟨some ['a', 'b', 'c'], none, none, none, 100, 100, false, false⟩
      ⟨[], [], [], []⟩
      = (.error "chunkOverlap must be smaller than chunkSize",
         { documents := [⟨"d1", "abc", none, none, none, 5, 3⟩],
           chunks := [], entities := [], docVectors := [] }) := by
  have h := (ingest_failure_states
    ⟨fun t => String.mk t, fun ts => .ok (ts.map (fun _ => [])), none, none⟩
    "d1" (fun _ => "c") (fun _ => "e") 5
    ⟨some ['a', 'b', 'c'], none, none, none, 100, 100, false, false⟩
    ⟨[], [], [], []⟩).2.1 ['a', 'b', 'c']
    (by decide) rfl rfl (by decide)
  exact h

/-- Claim C1 counterexample: the same failed ingest leaves a new document
row in the store — the claim's "after a failed ingest call no new document
row ... exist[s]" is false. -/
theorem ingest_failed_but_document_committed_cex :
    (ingest ⟨fun t => String.mk t, fun ts => .ok (ts.map (fun _ => [])),
        none, none⟩
      "d1" (fun _ => "c") (fun _ => "e") 5
      ⟨some ['a', 'b', 'c'], none, none, none, 100, 100, false, false⟩
      ⟨[], [], [], []⟩).1
      = .error "chunkOverlap must be smaller than chunkSize" ∧
    (ingest ⟨fun t => String.mk t, fun ts => .ok (ts.map (fun _ => [])),
        none, none⟩
      "d1" (fun _ => "c") (fun _ => "e") 5
      ⟨some ['a', 'b', 'c'], none, none, none, 100, 100, false, false⟩
      ⟨[], [], [], []⟩).2.documents
      = [⟨"d1", "abc", none, none, none, 5, 3⟩] ∧
    ¬ ([⟨"d1", "abc", none, none, none, 5, 3⟩] : List DocRow) = [] := by
  refine ⟨rfl, rfl, by simp⟩

/-- `insertChunks` never touches the `documents` or `entities` tables. -/
theorem insertChunks_frame (fcid : Nat → String) (docId : String) :
    ∀ (cs : List TextChunk) (index : Nat) (embs : List (List ℚ))
      (sums : List (Option (List Char))) (st : Store),
      (insertChunks fcid docId index cs embs sums st).documents = st.documents ∧
      (insertChunks fcid docId index cs embs sums st).entities = st.entities := by
  intro cs
  induction cs with
  | nil => intro index embs sums st; exact ⟨rfl, rfl⟩
  | cons c cs ih =>
      intro index embs sums st
      rw [insertChunks]
      exact ih (index + 1) embs.tail sums.tail _

/-- `insertChunks` appends one chunk row per chunk, all owned by `docId`. -/
theorem insertChunks_chunks (fcid : Nat → String) (docId : String) :
    ∀ (cs : List TextChunk) (index : Nat) (embs : List (List ℚ))
      (sums : List (Option (List Char))) (st : Store),
      ∃ newC, (insertChunks fcid docId index cs embs sums st).chunks
          = st.chunks ++ newC ∧
        newC.length = cs.length ∧ ∀ c ∈ newC, c.docId = docId := by
  intro cs
  induction cs with
  | nil =>
      intro index embs sums st
      exact ⟨[], by simp [insertChunks], rfl, by simp⟩
  | cons c cs ih =>
      intro index embs sums st
      rw [insertChunks]
      obtain ⟨newC, h1, h2, h3⟩ := ih (index + 1) embs.tail sums.tail
        { st with
          chunks := st.chunks ++ [⟨fcid index, docId, c.start, c.stop, none,
            c.text, sums.head?.getD none, some (fcid index)⟩],
          docVectors := upsertDocVector st.docVectors
            ⟨fcid index, docId, c.start, c.stop, embs.head?.getD []⟩ }
      refine ⟨⟨fcid index, docId, c.start, c.stop, none, c.text,
        sums.head?.getD none, some (fcid index)⟩ :: newC, ?_, by simp [h2], ?_⟩
      · rw [h1]
        simp
      · intro x hx
        rcases List.mem_cons.mp hx with hx | hx
        · subst hx; rfl
        · exact h3 x hx

/-- `find?` skips a prefix that contains no match. -/
theorem find?_append_of_none {α : Type} (p : α → Bool) :
    ∀ (l₁ l₂ : List α), l₁.find? p = none →
      (l₁ ++ l₂).find? p = l₂.find? p := by
  intro l₁
  induction l₁ with
  | nil => intro l₂ _; rfl
  | cons x xs ih =>
      intro l₂ h
      cases hpx : p x with
      | true =>
          rw [List.find?_cons_of_pos _ hpx] at h
          cases h
      | false =>
          rw [List.find?_cons_of_neg _ (by simp [hpx])] at h
          rw [List.cons_append, List.find?_cons_of_neg _ (by simp [hpx])]
          exact ih l₂ h

theorem filter_none_of_forall {α : Type} (p : α → Bool) :
    ∀ (l : List α), (∀ a ∈ l, ¬ p a = true) → l.filter p = [] := by
  intro l
  induction l with
  | nil => intro _; rfl
  | cons x xs ih =>
      intro h
      rw [List.filter_cons_of_neg (by simpa using h x (List.mem_cons_self x xs))]
      exact ih (fun a ha => h a (List.mem_cons_of_mem x ha))

theorem filter_all_of_forall {α : Type} (p : α → Bool) :
    ∀ (l : List α), (∀ a ∈ l, p a = true) → l.filter p = l := by
  intro l
  induction l with
  | nil => intro _; rfl
  | cons x xs ih =>
      intro h
      rw [List.filter_cons_of_pos (h x (List.mem_cons_self x xs))]
      rw [ih (fun a ha => h a (List.mem_cons_of_mem x ha))]

/-- An ingest call whose hash lookup hits returns the stored document's id
and its current chunk count, without touching the store. -/
theorem ingest_dedup_hit (col : Collaborators) (fid : String)
    (fcid feid : Nat → String) (now : Nat) (req : IngestRequest) (st : Store)
    (text : List Char) (doc : DocRow)
    (hv : validOptions req) (hc : req.content = some text)
    (hnoov : req.hashOverride = none)
    (hfind : findByHash st.documents (col.hashFn text) = some doc) :
    ingest col fid fcid feid now req st
      = (.ok ⟨doc.id, (listByDocument st.chunks doc.id).length, none⟩, st) := by
  rw [ingest, if_pos hv]
  simp only [hc, hnoov, Option.getD_none, hfind]

/-- Counting a document's chunks after its rows were appended to a table
that held none of them. -/
theorem listByDocument_length (oldChunks newC : List ChunkRow) (docId : String)
    (hfresh : ∀ c ∈ oldChunks, ¬ c.docId = docId)
    (hown : ∀ c ∈ newC, c.docId = docId) :
    (listByDocument (oldChunks ++ newC) docId).length = newC.length := by
  rw [listByDocument, length_sortChunksAsc, List.filter_append]
  rw [filter_none_of_forall _ oldChunks (by
    intro a ha
    simpa using hfresh a ha)]
  rw [filter_all_of_forall _ newC (by
    intro a ha
    simpa using hown a ha)]
  simp

/-- Claim C4: ingestion is idempotent under identical content.  If a first
ingest of an inline-content request with no hash override succeeds (returning
result `r₁` and leaving store `stF`), then re-running ingest on the same
request against `stF` — with any fresh ids and clock — hits the hash lookup,
returns the same document id and the same chunk count, and leaves the store
unchanged (in particular it creates no new document row).  The freshness
hypothesis says the first run's new document id did not already own chunk
rows, which holds for the source's `randomUUID()` ids. -/
theorem ingest_idempotent (col : Collaborators) (freshDocId : String)
    (freshChunkIds freshEntityIds : Nat → String) (now : Nat)
    (req : IngestRequest) (st₀ stF : Store) (r₁ : IngestResult)
    (hnoov : req.hashOverride = none)
    (hfresh : ∀ c ∈ st₀.chunks, ¬ c.docId = freshDocId)
    (hrun : ingest col freshDocId freshChunkIds freshEntityIds now req st₀
      = (.ok r₁, stF)) :
    ∀ (fid' : String) (fcid' feid' : Nat → String) (now' : Nat),
      ∃ r₂, ingest col fid' fcid' feid' now' req stF = (.ok r₂, stF) ∧
        r₂.docId = r₁.docId ∧ r₂.chunkCount = r₁.chunkCount := by
  intro fid' fcid' feid' now'
  by_cases hv : validOptions req
  · cases hc : req.content with
    | none =>
        rw [ingest, if_pos hv] at hrun
        simp only [hc] at hrun
        simp at hrun
    | some text =>
        rw [ingest, if_pos hv] at hrun
        simp only [hc, hnoov, Option.getD_none] at hrun
        cases hfind : findByHash st₀.documents (col.hashFn text) with
        | some existing =>
            simp only [hfind] at hrun
            rw [Prod.mk.injEq] at hrun
            obtain ⟨hfst, hsnd⟩ := hrun
            injection hfst with hr1
            subst hsnd
            exact ⟨⟨existing.id,
                (listByDocument st₀.chunks existing.id).length, none⟩,
              ingest_dedup_hit col fid' fcid' feid' now' req st₀ text existing
                hv hc hnoov hfind,
              by rw [← hr1], by rw [← hr1]⟩
        | none =>
            simp only [hfind] at hrun
            cases hsplit : split text req.chunkSize req.chunkOverlap with
            | error e => simp only [hsplit] at hrun; simp at hrun
            | ok chunks =>
                simp only [hsplit] at hrun
                cases hembed : col.embed (chunks.map fun c => c.text) with
                | error e => simp only [hembed] at hrun; simp at hrun
                | ok embeddings =>
                    simp only [hembed] at hrun
                    cases hsum :
                        generateSummaries col chunks req.generateSummary with
                    | error e => simp only [hsum] at hrun; simp at hrun
                    | ok summaries =>
                        simp only [hsum] at hrun
                        set doc : DocRow := ⟨freshDocId, col.hashFn text, none,
                          req.mime, req.title, now, text.length⟩ with hdoc
                        set st₂ : Store := insertChunks freshChunkIds
                          freshDocId 0 chunks embeddings summaries
                          { st₀ with documents := st₀.documents ++ [doc] }
                          with hst₂
                        have hdocs2 : st₂.documents = st₀.documents ++ [doc] :=
                          (insertChunks_frame freshChunkIds freshDocId chunks 0
                            embeddings summaries
                            { st₀ with
                              documents := st₀.documents ++ [doc] }).1
                        obtain ⟨newC, hch, hlen, hown⟩ :=
                          insertChunks_chunks freshChunkIds freshDocId chunks 0
                            embeddings summaries
                            { st₀ with documents := st₀.documents ++ [doc] }
                        have hch' : st₂.chunks = st₀.chunks ++ newC := hch
                        have hfind₂ : findByHash st₂.documents
                            (col.hashFn text) = some doc := by
                          rw [findByHash, hdocs2]
                          rw [find?_append_of_none _ st₀.documents [doc]
                            hfind]
                          simp [hdoc]
                        have hid : doc.id = freshDocId := by rw [hdoc]
                        have hcount : (listByDocument st₂.chunks doc.id).length
                            = chunks.length := by
                          rw [hid, hch',
                            listByDocument_length st₀.chunks newC freshDocId
                              hfresh hown, hlen]
                        by_cases hde : req.detectEntities
                        · rw [if_pos hde] at hrun
                          cases hex : col.extract with
                          | none =>
                              simp only [hex] at hrun
                              rw [Prod.mk.injEq] at hrun
                              obtain ⟨hfst, hsnd⟩ := hrun
                              injection hfst with hr1
                              subst hsnd
                              exact ⟨⟨doc.id,
                                  (listByDocument st₂.chunks doc.id).length,
                                  none⟩,
                                ingest_dedup_hit col fid' fcid' feid' now' req
                                  st₂ text doc hv hc hnoov hfind₂,
                                by rw [← hr1],
                                by rw [← hr1]; exact hcount⟩
                          | some ex =>
                              simp only [hex] at hrun
                              cases hents : ex text with
                              | error e =>
                                  simp only [hents] at hrun; simp at hrun
                              | ok ents =>
                                  simp only [hents] at hrun
                                  rw [Prod.mk.injEq] at hrun
                                  obtain ⟨hfst, hsnd⟩ := hrun
                                  injection hfst with hr1
                                  subst hsnd
                                  refine ⟨⟨doc.id,
                                      (listByDocument ({ st₂ with
                                        entities := registerEntities
                                          freshEntityIds now 0 ents
                                          st₂.entities } : Store).chunks
                                        doc.id).length, none⟩,
                                    ingest_dedup_hit col fid' fcid' feid' now'
                                      req _ text doc hv hc hnoov hfind₂,
                                    by rw [← hr1],
                                    by rw [← hr1]; exact hcount⟩
                        · rw [if_neg hde] at hrun
                          rw [Prod.mk.injEq] at hrun
                          obtain ⟨hfst, hsnd⟩ := hrun
                          injection hfst with hr1
                          subst hsnd
                          exact ⟨⟨doc.id,
                              (listByDocument st₂.chunks doc.id).length,
                              none⟩,
                            ingest_dedup_hit col fid' fcid' feid' now' req
                              st₂ text doc hv hc hnoov hfind₂,
                            by rw [← hr1],
                            by rw [← hr1]; exact hcount⟩
  · rw [ingest, if_neg hv] at hrun
    simp at hrun

/-- Witness for C4: a one-chunk ingest of `"abc"` on an empty store, then a
second ingest of the same request with different fresh ids and clock. -/
theorem ingest_idempotent_witness :
    ∃ r₂, ingest
        ⟨fun _ => "h", fun ts => .ok (ts.map fun _ => []), none, none⟩
        "d2" (fun _ => "c9") (fun _ => "e9") 7
        ⟨some ['a', 'b', 'c'], none, none, none, 100, 0, false, false⟩
        ⟨[⟨"d1", "h", none, none, none, 0, 3⟩],
         [⟨"c0", "d1", 0, 3, none, ['a', 'b', 'c'], none, some "c0"⟩], [],
         [⟨"c0", "d1", 0, 3, []⟩]⟩
      = (.ok r₂,
         ⟨[⟨"d1", "h", none, none, none, 0, 3⟩],
          [⟨"c0", "d1", 0, 3, none, ['a', 'b', 'c'], none, some "c0"⟩], [],
          [⟨"c0", "d1", 0, 3, []⟩]⟩) ∧
      r₂.docId = (⟨"d1", 1, none⟩ : IngestResult).docId ∧
      r₂.chunkCount = (⟨"d1", 1, none⟩ : IngestResult).chunkCount :=
  ingest_idempotent
    ⟨fun _ => "h", fun ts => .ok (ts.map fun _ => []), none, none⟩
    "d1" (fun _ => "c0") (fun _ => "e0") 0
    ⟨some ['a', 'b', 'c'], none, none, none, 100, 0, false, false⟩
    ⟨[], [], [], []⟩
    ⟨[⟨"d1", "h", none, none, none, 0, 3⟩],
     [⟨"c0", "d1", 0, 3, none, ['a', 'b', 'c'], none, some "c0"⟩], [],
     [⟨"c0", "d1", 0, 3, []⟩]⟩
    ⟨"d1", 1, none⟩ rfl (by simp)
    (by
      rw [ingest, if_pos (by decide)]
      simp [split, splitLoop, findByHash, generateSummaries, insertChunks,
        upsertDocVector])
    "d2" (fun _ => "c9") (fun _ => "e9") 7

end MemorizedMCP
